import Mathlib

/-!
Verification of the shortest-path server (src/server.py).

The development shallowly embeds the two request handlers of the server:
`create_upload_file` (graph upload and normalization) and
`get_shortest_path` (boundary guards, graph closure, Dijkstra loop and
path reconstruction).  Python dictionaries are modelled as association
lists with first-match lookup and replace-in-place insertion; JSON
values are modelled by the inductive type `JValue`; Python floats are
modelled by exact rationals (IEEE rounding is not modelled, so all
arithmetic below is exact); the heapq priority queue is modelled as a
bag with minimum extraction, which matches heapq observationally
because tuple comparison on (float, str) pairs is a total order, so the
minimum entry popped by heapq is uniquely determined as a value.
-/

namespace Server

/-- JSON values as produced by Python json.loads: object keys are
strings, numbers come out as int or float, plus booleans and null. -/
inductive JValue where
  | jstr (s : String)
  | jint (n : ℤ)
  | jfloat (q : ℚ)
  | jbool (b : Bool)
  | jnull
  | jarr (l : List JValue)
  | jobj (m : List (String × JValue))

/-- First-match lookup in an association list, the model of Python dict
indexing (dict keys are unique, so first match is the match). -/
def alookup {α : Type} : List (String × α) → String → Option α
  | [], _ => none
  | (k₀, v₀) :: rest, k => if k₀ = k then some v₀ else alookup rest k

/-- Python dict assignment d[k] = v: replace the value in place if the
key is present, otherwise append the new binding at the end. -/
def insertPy {α : Type} : List (String × α) → String → α → List (String × α)
  | [], k, v => [(k, v)]
  | (k₀, v₀) :: rest, k, v =>
      if k₀ = k then (k, v) :: rest else (k₀, v₀) :: insertPy rest k v

/-- Parse a decimal string the way Python float(str) does on plain
decimal literals: optional sign, digits, optional fractional part.
Exotic accepted forms (exponents, inf, nan, underscores, surrounding
whitespace) are not modelled; no claim depends on string-typed weights. -/
def parseDecDigits : List Char → Option ℕ
  | [] => none
  | cs =>
      if cs.all Char.isDigit then
        some (cs.foldl (fun acc c => acc * 10 + (c.toNat - 48)) 0)
      else none

/-- Split a digit string at the decimal point and build the rational. -/
def parseDecCore (cs : List Char) : Option ℚ :=
  match cs.splitOn '.' with
  | [intPart] => (parseDecDigits intPart).map (fun n => (n : ℚ))
  | [intPart, fracPart] =>
      match parseDecDigits intPart, parseDecDigits fracPart with
      | some n, some f => some ((n : ℚ) + (f : ℚ) / ((10 : ℚ) ^ fracPart.length))
      | _, _ => none
  | _ => none

def parseDec (s : String) : Option ℚ :=
  match s.data with
  | '-' :: rest => (parseDecCore rest).map (fun q => -q)
  | '+' :: rest => parseDecCore rest
  | cs => parseDecCore cs

/-- Python float(x) on a JSON-decoded value: exact on int and float,
True/False map to 1/0, numeric strings parse, everything else raises
(modelled as none). -/
def pyFloat : JValue → Option ℚ
  | .jint n => some (n : ℚ)
  | .jfloat q => some q
  | .jbool b => some (if b then 1 else 0)
  | .jstr s => parseDec s
  | .jnull => none
  | .jarr _ => none
  | .jobj _ => none

/-- Python str(x) on a JSON-decoded value.  Identity on strings and
exact decimal on ints, which are the only cases the claims exercise;
the float/bool/null/container cases are best-effort renderings (Python
float repr in particular is not modelled exactly) and no claim depends
on them. -/
def pyStr : JValue → String
  | .jstr s => s
  | .jint n => toString n
  | .jfloat q => toString q
  | .jbool b => if b then "True" else "False"
  | .jnull => "None"
  | .jarr _ => "[...]"
  | .jobj _ => "\x7b...\x7d"

/-- An adjacency mapping: neighbour id to weight. -/
abbrev Adj := List (String × ℚ)

/-- A normalized graph: node id to adjacency mapping. -/
abbrev Graph := List (String × Adj)

/-- Case 1 of the normalization loop (server.py lines 61-65): the entry
is already an adjacency dict, so coerce every weight with float();
a coercion failure raises and aborts the whole upload (none). -/
def coerceAdjDict : Adj → List (String × JValue) → Option Adj
  | acc, [] => some acc
  | acc, (nbr, weight) :: rest =>
      match pyFloat weight with
      | none => none
      | some w => coerceAdjDict (insertPy acc nbr w) rest

/-- The weight value chosen by edge.get("distance", edge.get("weight")):
the value under "distance" when that key is present (even when it is
null), otherwise the value under "weight" when present. -/
def effWeight (m : List (String × JValue)) : Option JValue :=
  match alookup m "distance" with
  | some v => some v
  | none => alookup m "weight"

/-- One iteration of the edge-list loop (server.py lines 70-78):
skip non-dict entries, entries without "to", and entries whose chosen
weight value is missing or null; otherwise coerce and insert, where a
float() failure raises and aborts the whole upload (none). -/
def processEdge (acc : Adj) : JValue → Option Adj
  | .jobj m =>
      match alookup m "to" with
      | none => some acc
      | some toVal =>
          match effWeight m with
          | none => some acc
          | some .jnull => some acc
          | some w =>
              match pyFloat w with
              | none => none
              | some q => some (insertPy acc (pyStr toVal) q)
  | _ => some acc

/-- Case 2 of the normalization loop (server.py lines 68-79): fold the
edge list, propagating a raised coercion error. -/
def coerceEdgeList : Adj → List JValue → Option Adj
  | acc, [] => some acc
  | acc, e :: rest =>
      match processEdge acc e with
      | none => none
      | some acc₂ => coerceEdgeList acc₂ rest

/-- Normalization of one top-level entry: dict, list, or anything else
treated as a node with no outgoing edges (server.py lines 61-83). -/
def normalizeEntry : JValue → Option Adj
  | .jobj m => coerceAdjDict [] m
  | .jarr l => coerceEdgeList [] l
  | _ => some []

/-- The top-level normalization loop (server.py lines 57-83).  JSON
object keys are already strings, so the str(node_id) call is the
identity and is not re-applied here. -/
def normalizeData : Graph → List (String × JValue) → Option Graph
  | acc, [] => some acc
  | acc, (nodeId, neighbors) :: rest =>
      match normalizeEntry neighbors with
      | none => none
      | some adj => normalizeData (insertPy acc nodeId adj) rest

/-- Responses of the upload endpoint: the dict \x7b"Upload Error": msg\x7d
or \x7b"Upload Success": filename\x7d. -/
inductive UploadResponse where
  | uploadError (msg : String)
  | uploadSuccess (filename : String)
deriving DecidableEq

/-- ASCII lowercasing, the model of filename.lower() (the claims only
exercise ASCII filenames). -/
def lowerStr (s : String) : String :=
  ⟨s.data.map Char.toLower⟩

/-- Suffix test, the model of str.endswith. -/
def endsWithStr (s suffi : String) : Bool :=
  decide (suffi.data.reverse <+: s.data.reverse)

/-- The upload endpoint create_upload_file (server.py lines 24-93) as a
state transformer on the optional active graph.  The request payload is
modelled post-decode: none stands for a body that failed UTF-8 decoding
or JSON parsing.  Every failure path returns the state unchanged; the
success path replaces it wholesale. -/
def create_upload_file (st : Option Graph) (filename : String)
    (payload : Option JValue) : Option Graph × UploadResponse :=
  if endsWithStr (lowerStr filename) ".json" = false then
    (st, .uploadError "Invalid file type")
  else
    match payload with
    | none => (st, .uploadError "Invalid JSON graph format")
    | some data =>
        match data with
        | .jobj entries =>
            match normalizeData [] entries with
            | none => (st, .uploadError "Invalid JSON graph format")
            | some g =>
                if g.isEmpty then (st, .uploadError "Invalid JSON graph format")
                else (some g, .uploadSuccess filename)
        | _ => (st, .uploadError "Invalid JSON graph format")

/-- Responses of the solve endpoint: the dict \x7b"Solver Error": msg\x7d
or the result dict with the shortest_path and total_distance fields. -/
inductive SolveResponse where
  | solverError (msg : String)
  | result (sp : Option (List String)) (td : Option ℚ)
deriving DecidableEq

/-- All node ids of the active graph: keys plus neighbour targets
(server.py lines 122-125).  The Python set is only used for membership
tests, so a list with duplicates models it; str() on the keys is the
identity since they are already strings. -/
def nodesOf (g : Graph) : List String :=
  g.map Prod.fst ++ (g.map (fun p => p.2.map Prod.fst)).flatten

/-- Adjacency of a node, defaulting to empty: graph.get(u, \x7b\x7d). -/
def adjOf (g : Graph) (u : String) : Adj :=
  (alookup g u).getD []

/-- Weight of the edge from u to v, when that edge exists. -/
def edgeW (g : Graph) (u v : String) : Option ℚ :=
  alookup (adjOf g u) v

/-- Rebuild an adjacency dict by successive assignment, as the filling
loop at server.py lines 134-138 does (float() on an already-coerced
float is the identity). -/
def closeAdj (adj : Adj) : Adj :=
  adj.foldl (fun acc p => insertPy acc p.1 p.2) []

/-- The closed graph built at server.py lines 132-138: every node id
becomes a key, declared adjacencies are copied in.  The arbitrary
iteration order of the Python set is modelled by dedup order; the
solver reads this dict only through lookups, which are insensitive to
key order. -/
def closeGraph (g : Graph) : Graph :=
  (nodesOf g).dedup.map (fun u => (u, closeAdj (adjOf g u)))

/-- The mutable state of the Dijkstra loop (server.py lines 142-144):
the lazy-deletion priority queue, the tentative distance map and the
predecessor map. -/
structure DState where
  pq : List (ℚ × String)
  dist : List (String × ℚ)
  prev : List (String × String)
deriving DecidableEq

/-- Lexicographic order on queue entries, as Python compares the
(distance, node) tuples. -/
def pqLe (a b : ℚ × String) : Prop :=
  a.1 < b.1 ∨ (a.1 = b.1 ∧ a.2 ≤ b.2)

instance (a b : ℚ × String) : Decidable (pqLe a b) := by
  unfold pqLe
  infer_instance

/-- Extraction of the minimum entry, the model of heapq.heappop.  The
lexicographic tuple order is total, so the minimum entry is uniquely
determined as a value and a sorted-bag model is observationally
identical to the binary heap. -/
def popMin : List (ℚ × String) → Option ((ℚ × String) × List (ℚ × String))
  | [] => none
  | x :: xs =>
      match popMin xs with
      | none => some (x, [])
      | some (m, rest) => if pqLe x m then some (x, xs) else some (m, x :: rest)

/-- The relaxation loop over the popped node's outgoing edges
(server.py lines 152-157): cd is the popped entry's distance cur_d.
The two update branches mirror the short-circuit condition
(v not in dist or new_d < dist[v]); both set dist[v] and prev[v] and
push the new entry. -/
def relaxEdges (u : String) (cd : ℚ) : DState → Adj → DState
  | st, [] => st
  | st, (v, w) :: rest =>
      match alookup st.dist v with
      | none =>
          relaxEdges u cd
            ⟨(cd + w, v) :: st.pq, insertPy st.dist v (cd + w),
              insertPy st.prev v u⟩ rest
      | some dv =>
          if cd + w < dv then
            relaxEdges u cd
              ⟨(cd + w, v) :: st.pq, insertPy st.dist v (cd + w),
                insertPy st.prev v u⟩ rest
          else relaxEdges u cd st rest

/-- The Dijkstra while loop (server.py lines 146-157).  The while loop
has no fuel in Python; the fuel argument is a modelling device and
loopFuel below is proven sufficient for non-negative weights.  The none
result stands for fuel exhaustion or for the KeyError that dist[u]
would raise on a node missing from dist; both are proven unreachable. -/
def dloop (cg : Graph) (endId : String) : Nat → DState → Option DState
  | 0, _ => none
  | fuel + 1, st =>
      match popMin st.pq with
      | none => some st
      | some ((d, u), rest) =>
          match alookup st.dist u with
          | none => none
          | some du =>
              if du < d then dloop cg endId fuel { st with pq := rest }
              else if u = endId then some { st with pq := rest }
              else
                dloop cg endId fuel
                  (relaxEdges u d { st with pq := rest } (adjOf cg u))

/-- Out-degree in the closed graph. -/
def outDeg (cg : Graph) (u : String) : ℕ :=
  (adjOf cg u).length

/-- Node set of the loop run: the start node and every id of the graph
the loop walks. -/
def nodesFin (cg : Graph) (s : String) : Finset String :=
  insert s (nodesOf cg).toFinset

/-- Fuel sufficient for the while loop: one initial entry, and each
node can be settled once, pushing at most its out-degree of entries. -/
def loopFuel (cg : Graph) (s : String) : ℕ :=
  2 + (nodesFin cg s).sum (fun u => outDeg cg u + 1)

/-- The path reconstruction loop (server.py lines 167-177), produced
directly in forward order (the code builds the reversed list and then
reverses it).  The none result covers the safety guard (a missing
predecessor) and fuel exhaustion; the fuel is proven sufficient. -/
def reconstruct (prev : List (String × String)) (startId : String) :
    Nat → String → Option (List String)
  | 0, _ => none
  | fuel + 1, cur =>
      if cur = startId then some [startId]
      else
        match alookup prev cur with
        | none => none
        | some parent =>
            (reconstruct prev startId fuel parent).map (fun p => p ++ [cur])

/-- The initial solver state (server.py lines 142-144). -/
def initState (s : String) : DState :=
  ⟨[(0, s)], [(s, 0)], []⟩

/-- The solve endpoint get_shortest_path (server.py lines 96-182).
The Python truthiness test (if not active_graph) is false for None and
for an empty dict, so both yield the no-active-graph error. -/
def get_shortest_path (st : Option Graph) (startId endId : String) :
    SolveResponse :=
  match st with
  | none => .solverError "No active graph, please upload a graph first."
  | some g =>
      if g.isEmpty then
        .solverError "No active graph, please upload a graph first."
      else if startId ∉ nodesOf g ∨ endId ∉ nodesOf g then
        .solverError "Invalid start or end node ID."
      else
        match dloop (closeGraph g) endId (loopFuel (closeGraph g) startId)
            (initState startId) with
        | none => .result none none
        | some fin =>
            match alookup fin.dist endId with
            | none => .result none none
            | some de =>
                match reconstruct fin.prev startId (fin.dist.length + 1)
                    endId with
                | none => .result none none
                | some p => .result (some p) (some de)

/-- The solve handler as a state transformer: it declares the global
active graph but never assigns it (server.py line 113), so the state
passes through unchanged. -/
def solveStep (st : Option Graph) (s e : String) :
    Option Graph × SolveResponse :=
  (st, get_shortest_path st s e)

/-- Chained-edge check for a node sequence: every consecutive pair is
an edge of the graph. -/
def chainOk (g : Graph) : List String → Bool
  | a :: b :: rest => (edgeW g a b).isSome && chainOk g (b :: rest)
  | _ => true

/-- Total weight of a node sequence along its consecutive edges. -/
def pathWeight (g : Graph) : List String → ℚ
  | a :: b :: rest => (edgeW g a b).getD 0 + pathWeight g (b :: rest)
  | _ => 0

/-- A path from s to e in g: non-empty, starts at s, ends at e, and
every consecutive pair is an edge. -/
def IsPathFrom (g : Graph) (s e : String) (p : List String) : Prop :=
  p.head? = some s ∧ p.getLast? = some e ∧ chainOk g p = true

instance (g : Graph) (s e : String) (p : List String) :
    Decidable (IsPathFrom g s e p) := by
  unfold IsPathFrom
  infer_instance

/-- Reachability: some path connects s to e. -/
def Reachable (g : Graph) (s e : String) : Prop :=
  ∃ p, IsPathFrom g s e p

/-- Reachability with an attained total weight, in snoc form, the
induction-friendly counterpart of IsPathFrom. -/
inductive Reaches (g : Graph) (s : String) : String → ℚ → Prop where
  | refl : Reaches g s s 0
  | step {u v : String} {d w : ℚ} :
      Reaches g s u d → edgeW g u v = some w → Reaches g s v (d + w)

/-- All weights of a graph are non-negative (the validity condition of
the claims; all rationals are finite, so finiteness is automatic in
this model). -/
def NonnegWeights (g : Graph) : Prop :=
  ∀ p ∈ g, ∀ q ∈ p.2, (0 : ℚ) ≤ q.2

instance (g : Graph) : Decidable (NonnegWeights g) := by
  unfold NonnegWeights
  infer_instance

/-- Well-formedness of a graph value as a model of a Python dict of
dicts: keys are unique at both levels. -/
def GraphWF (g : Graph) : Prop :=
  (g.map Prod.fst).Nodup ∧ ∀ p ∈ g, (p.2.map Prod.fst).Nodup

instance (g : Graph) : Decidable (GraphWF g) := by
  unfold GraphWF
  infer_instance

/-- An edge-list element that the normalization loop actually uses: a
mapping with a "to" key whose chosen weight value is present and not
null.  Every other element is skipped by the loop. -/
def usableEdge : JValue → Bool
  | .jobj m =>
      (alookup m "to").isSome &&
        (match effWeight m with
         | none => false
         | some .jnull => false
         | some _ => true)
  | _ => false

/-- The direct weight-mapping JSON representation of an adjacency. -/
def dictForm (adj : List (String × ℚ)) : JValue :=
  .jobj (adj.map (fun p => (p.1, .jfloat p.2)))

/-- The equivalent edge-list JSON representation of an adjacency. -/
def edgeListForm (adj : List (String × ℚ)) : JValue :=
  .jarr (adj.map (fun p => .jobj [("to", .jstr p.1), ("distance", .jfloat p.2)]))

/-- The core loop invariant of the Dijkstra while loop, over a ghost
list S of settled nodes (most recently settled first).  dist values are
attained path weights; settled nodes carry minimal distances; every
discovered unsettled node keeps a current entry in the queue; queue
entries over-approximate current distances; predecessor entries record
a real edge whose endpoints' distances differ exactly by its weight;
and every settled node can be reconstructed into an attained minimal
path through prev. -/
structure InvCore (cg : Graph) (s : String) (S : List String)
    (st : DState) : Prop where
  distNodup : (st.dist.map Prod.fst).Nodup
  prevNodup : (st.prev.map Prod.fst).Nodup
  distStart : alookup st.dist s = some 0
  distSound : ∀ v d, alookup st.dist v = some d → Reaches cg s v d
  distNonneg : ∀ v d, alookup st.dist v = some d → 0 ≤ d
  distMem : ∀ v d, alookup st.dist v = some d → v ∈ nodesFin cg s
  settledNodup : S.Nodup
  settledSub : ∀ u ∈ S, ∃ du, alookup st.dist u = some du
  settledMin : ∀ u ∈ S, ∀ du, alookup st.dist u = some du →
    ∀ w, Reaches cg s u w → du ≤ w
  frontier : ∀ v d, alookup st.dist v = some d → v ∉ S → (d, v) ∈ st.pq
  pqSound : ∀ d v, (d, v) ∈ st.pq →
    ∃ dv, alookup st.dist v = some dv ∧ dv ≤ d
  prevSound : ∀ v u, alookup st.prev v = some u →
    v ≠ s ∧ u ∈ S ∧ ∃ w dv du, edgeW cg u v = some w ∧
      alookup st.dist v = some dv ∧ alookup st.dist u = some du ∧
      dv = du + w
  prevTotal : ∀ v d, alookup st.dist v = some d → v ≠ s →
    ∃ u, alookup st.prev v = some u
  reconOk : ∀ u, (u = s ∨ u ∈ S) → ∀ du, alookup st.dist u = some du →
    ∃ p n, n ≤ S.length + 1 ∧ reconstruct st.prev s n u = some p ∧
      IsPathFrom cg s u p ∧ pathWeight cg p = du ∧
      ∀ x ∈ p, x = s ∨ x ∈ S

/-- The full loop invariant: additionally, every settled node has all
its outgoing edges relaxed. -/
structure LoopInv (cg : Graph) (s : String) (S : List String)
    (st : DState) extends InvCore cg s S st : Prop where
  settledRelax : ∀ u ∈ S, ∀ du, alookup st.dist u = some du →
    ∀ v w, edgeW cg u v = some w →
      ∃ dv, alookup st.dist v = some dv ∧ dv ≤ du + w

/-- The invariant holding while the relaxation loop of a freshly
settled node u (already placed at the head of S) is in progress: all of
LoopInv except that u's own edges are only partially relaxed; cd is the
popped distance of u, equal to its recorded distance. -/
structure RelaxState (cg : Graph) (s : String) (S : List String)
    (u : String) (cd : ℚ) (st : DState) extends InvCore cg s S st : Prop where
  settledRelaxOld : ∀ u₂ ∈ S, u₂ ≠ u → ∀ du₂, alookup st.dist u₂ = some du₂ →
    ∀ v w, edgeW cg u₂ v = some w →
      ∃ dv, alookup st.dist v = some dv ∧ dv ≤ du₂ + w
  distU : alookup st.dist u = some cd

/-- The termination measure of the while loop: queue length plus, for
every not-yet-settled node, its out-degree plus one. -/
def dmeasure (cg : Graph) (s : String) (S : List String) (st : DState) : ℕ :=
  st.pq.length + ((nodesFin cg s) \ S.toFinset).sum (fun u => outDeg cg u + 1)

/-! Association-list lemmas. -/

theorem alookup_eq_none_iff {α : Type} (l : List (String × α)) (k : String) :
    alookup l k = none ↔ k ∉ l.map Prod.fst := by
  induction l with
  | nil => simp [alookup]
  | cons p rest ih =>
      obtain ⟨k₀, v₀⟩ := p
      by_cases hk : k₀ = k
      · subst hk
        simp [alookup]
      · simp [alookup, hk, ih, Ne.symm hk]

theorem alookup_mem {α : Type} {l : List (String × α)} {k : String} {v : α}
    (h : alookup l k = some v) : (k, v) ∈ l := by
  induction l with
  | nil => simp [alookup] at h
  | cons p rest ih =>
      obtain ⟨k₀, v₀⟩ := p
      by_cases hk : k₀ = k
      · subst hk
        simp [alookup] at h
        simp [h]
      · simp [alookup, hk] at h
        exact List.mem_cons_of_mem _ (ih h)

theorem alookup_insertPy_self {α : Type} (l : List (String × α)) (k : String)
    (v : α) : alookup (insertPy l k v) k = some v := by
  induction l with
  | nil => simp [insertPy, alookup]
  | cons p rest ih =>
      obtain ⟨k₀, v₀⟩ := p
      by_cases hk : k₀ = k
      · subst hk
        simp [insertPy, alookup]
      · simp [insertPy, alookup, hk, ih]

theorem alookup_insertPy_ne {α : Type} (l : List (String × α)) {k k₂ : String}
    (v : α) (h : k₂ ≠ k) : alookup (insertPy l k v) k₂ = alookup l k₂ := by
  induction l with
  | nil => simp [insertPy, alookup, Ne.symm h]
  | cons p rest ih =>
      obtain ⟨k₀, v₀⟩ := p
      by_cases hk : k₀ = k
      · subst hk
        simp [insertPy, alookup, Ne.symm h]
      · by_cases hk₂ : k₀ = k₂
        · subst hk₂
          simp [insertPy, alookup, hk]
        · simp [insertPy, alookup, hk, hk₂, ih]

theorem mem_keys_insertPy {α : Type} (l : List (String × α)) (k k₂ : String)
    (v : α) :
    k₂ ∈ (insertPy l k v).map Prod.fst ↔ k₂ ∈ l.map Prod.fst ∨ k₂ = k := by
  induction l with
  | nil => simp [insertPy]
  | cons p rest ih =>
      obtain ⟨k₀, v₀⟩ := p
      by_cases hk : k₀ = k
      · subst hk
        by_cases hk₂ : k₂ = k₀ <;> simp [insertPy, hk₂]
      · simp only [insertPy, hk, if_false, List.map_cons, List.mem_cons, ih]
        tauto

theorem nodup_keys_insertPy {α : Type} {l : List (String × α)}
    (h : (l.map Prod.fst).Nodup) (k : String) (v : α) :
    ((insertPy l k v).map Prod.fst).Nodup := by
  induction l with
  | nil => simp [insertPy]
  | cons p rest ih =>
      obtain ⟨k₀, v₀⟩ := p
      simp only [List.map_cons, List.nodup_cons] at h
      by_cases hk : k₀ = k
      · subst hk
        simpa [insertPy] using h
      · simp only [insertPy, hk, if_false, List.map_cons, List.nodup_cons]
        refine ⟨fun hmem => ?_, ih h.2⟩
        rcases (mem_keys_insertPy rest k k₀ v).mp hmem with hm | hm
        · exact h.1 hm
        · exact hk hm

theorem insertPy_of_not_mem {α : Type} {l : List (String × α)} {k : String}
    (h : k ∉ l.map Prod.fst) (v : α) : insertPy l k v = l ++ [(k, v)] := by
  induction l with
  | nil => simp [insertPy]
  | cons p rest ih =>
      obtain ⟨k₀, v₀⟩ := p
      simp only [List.map_cons, List.mem_cons] at h
      push_neg at h
      simp [insertPy, Ne.symm h.1, ih h.2]

theorem alookup_map_self {α : Type} (l : List String) (f : String → α)
    (x : String) :
    alookup (l.map (fun u => (u, f u))) x =
      if x ∈ l then some (f x) else none := by
  induction l with
  | nil => simp [alookup]
  | cons a rest ih =>
      by_cases hx : a = x
      · subst hx
        simp [alookup]
      · simp [alookup, hx, ih, Ne.symm hx]

/-! Closed-graph lemmas: the adjacency function of the closed graph
built inside the solve endpoint agrees with the active graph's. -/

theorem keys_closeGraph (g : Graph) :
    (closeGraph g).map Prod.fst = (nodesOf g).dedup := by
  simp [closeGraph, Function.comp_def]

theorem closeAdj_eq_self {adj : Adj} (h : (adj.map Prod.fst).Nodup) :
    closeAdj adj = adj := by
  suffices hgen : ∀ (l acc : Adj), (l.map Prod.fst).Nodup →
      (∀ k, k ∈ l.map Prod.fst → k ∉ acc.map Prod.fst) →
      l.foldl (fun acc p => insertPy acc p.1 p.2) acc = acc ++ l by
    simpa [closeAdj] using hgen adj [] h (by simp)
  intro l
  induction l with
  | nil => simp
  | cons p rest ih =>
      intro acc hnd hdisj
      obtain ⟨k₀, v₀⟩ := p
      simp only [List.map_cons, List.nodup_cons] at hnd
      have hnotin : k₀ ∉ acc.map Prod.fst := hdisj k₀ (by simp)
      simp only [List.foldl_cons, insertPy_of_not_mem hnotin]
      rw [ih (acc ++ [(k₀, v₀)]) hnd.2 ?_]
      · simp
      · intro k hk
        simp only [List.map_append, List.mem_append, List.map_cons,
          List.map_nil, List.mem_singleton]
        push_neg
        refine ⟨hdisj k (by simp [hk]), fun hkk => hnd.1 ?_⟩
        rw [← hkk]
        exact hk

theorem alookup_closeGraph (g : Graph) (u : String) :
    alookup (closeGraph g) u =
      if u ∈ nodesOf g then some (closeAdj (adjOf g u)) else none := by
  rw [closeGraph, alookup_map_self]
  simp [List.mem_dedup]

theorem keys_sub_nodesOf (g : Graph) : ∀ u ∈ g.map Prod.fst, u ∈ nodesOf g := by
  intro u hu
  simp [nodesOf, hu]

theorem adjOf_closeGraph {g : Graph} (hg : GraphWF g) (u : String) :
    adjOf (closeGraph g) u = adjOf g u := by
  rw [adjOf, alookup_closeGraph]
  by_cases hu : u ∈ nodesOf g
  · rw [if_pos hu]
    cases hl : alookup g u with
    | none => simp [adjOf, hl, closeAdj]
    | some adj =>
        simp only [adjOf, hl, Option.getD_some]
        exact closeAdj_eq_self (hg.2 _ (alookup_mem hl))
  · rw [if_neg hu]
    have : alookup g u = none := by
      rw [alookup_eq_none_iff]
      intro hk
      exact hu (keys_sub_nodesOf g u hk)
    simp [adjOf, this]

theorem edgeW_closeGraph {g : Graph} (hg : GraphWF g) (u v : String) :
    edgeW (closeGraph g) u v = edgeW g u v := by
  rw [edgeW, edgeW, adjOf_closeGraph hg]

/-! Normalization lemmas. -/

theorem processEdge_of_not_usable {e : JValue} (h : usableEdge e = false)
    (acc : Adj) : processEdge acc e = some acc := by
  cases e with
  | jobj m =>
      simp only [usableEdge, Bool.and_eq_false_iff] at h
      cases hto : alookup m "to" with
      | none => simp [processEdge, hto]
      | some toVal =>
          rcases h with h | h
          · rw [hto] at h
            simp at h
          · cases heff : effWeight m with
            | none => simp [processEdge, hto, heff]
            | some w =>
                rw [heff] at h
                cases w <;> simp_all [processEdge, hto, heff]
  | jstr s => rfl
  | jint n => rfl
  | jfloat q => rfl
  | jbool b => rfl
  | jnull => rfl
  | jarr l => rfl

theorem coerceEdgeList_filter_usable (l : List JValue) :
    ∀ acc, coerceEdgeList acc l = coerceEdgeList acc (l.filter usableEdge) := by
  induction l with
  | nil => intro acc; rfl
  | cons e rest ih =>
      intro acc
      by_cases hu : usableEdge e = true
      · rw [List.filter_cons_of_pos hu]
        simp only [coerceEdgeList]
        cases processEdge acc e with
        | none => rfl
        | some acc₂ => exact ih acc₂
      · have hu2 : usableEdge e = false := by
          simpa using hu
        rw [List.filter_cons_of_neg (by simp [hu2])]
        simp only [coerceEdgeList, processEdge_of_not_usable hu2]
        exact ih acc

theorem coerce_dict_eq_edgeList (adj : List (String × ℚ)) :
    ∀ acc, coerceAdjDict acc (adj.map (fun p => (p.1, .jfloat p.2))) =
      coerceEdgeList acc
        (adj.map (fun p => .jobj [("to", .jstr p.1), ("distance", .jfloat p.2)])) := by
  induction adj with
  | nil => intro acc; rfl
  | cons p rest ih =>
      intro acc
      obtain ⟨k, w⟩ := p
      simp only [List.map_cons]
      exact ih (insertPy acc k w)

theorem normalizeData_dict_eq_edgeList
    (G : List (String × List (String × ℚ))) :
    ∀ acc, normalizeData acc (G.map (fun p => (p.1, dictForm p.2))) =
      normalizeData acc (G.map (fun p => (p.1, edgeListForm p.2))) := by
  induction G with
  | nil => intro acc; rfl
  | cons p rest ih =>
      intro acc
      obtain ⟨k, adj⟩ := p
      simp only [List.map_cons, normalizeData, normalizeEntry, dictForm,
        edgeListForm]
      rw [coerce_dict_eq_edgeList adj []]
      cases coerceEdgeList []
          (adj.map (fun p => .jobj [("to", .jstr p.1), ("distance", .jfloat p.2)])) with
      | none => rfl
      | some a => exact ih (insertPy acc k a)

theorem mem_keys_normalizeData :
    ∀ (entries : List (String × JValue)) (acc g : Graph),
      normalizeData acc entries = some g →
      ∀ k, k ∈ g.map Prod.fst ↔
        (k ∈ acc.map Prod.fst ∨ k ∈ entries.map Prod.fst) := by
  intro entries
  induction entries with
  | nil =>
      intro acc g h k
      simp only [normalizeData, Option.some_inj] at h
      subst h
      simp
  | cons p rest ih =>
      intro acc g h k
      obtain ⟨a, v⟩ := p
      simp only [normalizeData] at h
      cases hne : normalizeEntry v with
      | none =>
          rw [hne] at h
          cases h
      | some adj =>
          rw [hne] at h
          have hmem := ih (insertPy acc a adj) g h k
          simp only [List.map_cons, List.mem_cons]
          rw [hmem, mem_keys_insertPy]
          tauto

theorem upload_preserves_or_success (st : Option Graph) (fn : String)
    (pl : Option JValue) :
    (create_upload_file st fn pl).1 = st ∨
      ∃ fn₂, (create_upload_file st fn pl).2 = .uploadSuccess fn₂ := by
  unfold create_upload_file
  split
  · exact .inl rfl
  · split
    · exact .inl rfl
    · split
      · split
        · exact .inl rfl
        · split
          · exact .inl rfl
          · exact .inr ⟨fn, rfl⟩
      · exact .inl rfl

/-! Claim C1.  The claim asserts that the graph stored as the active
graph already contains every neighbour target as a top-level key.  The
code stores normalized_graph without that closure (server.py line 91);
the closure over neighbour targets is performed later, inside the solve
endpoint (lines 121-138). -/

/-- Claim C1, counterexample: uploading the scenario-E payload
\x7b"A": [\x7b"to": "B", "distance": 5\x7d]\x7d stores the graph
\x7b"A": \x7b"B": 5.0\x7d\x7d, in which the neighbour target "B" is not a
top-level key, contradicting the claimed stored form
\x7b"A": \x7b"B": 5.0\x7d, "B": \x7b\x7d\x7d. -/
theorem claim_C1_counterexample :
    (create_upload_file none "graph.json"
        (some (.jobj [("A", .jarr [.jobj [("to", .jstr "B"),
          ("distance", .jint 5)]])]))).1 = some [("A", [("B", (5 : ℚ))])] ∧
      "B" ∉ ([("A", [("B", (5 : ℚ))])] : Graph).map Prod.fst := by
  refine ⟨by decide, by decide⟩

/-- Claim C1, amended: a successful upload stores exactly the declared
top-level nodes as keys; the closure that gives every neighbour target
a key (with empty adjacency when undeclared) is applied to the stored
graph inside the solve endpoint, via closeGraph; on scenario E the
stored graph is \x7b"A": \x7b"B": 5.0\x7d\x7d and its closure is
\x7b"A": \x7b"B": 5.0\x7d, "B": \x7b\x7d\x7d. -/
theorem claim_C1_amended :
    (∀ entries g, normalizeData [] entries = some g →
      ∀ k, k ∈ g.map Prod.fst ↔ k ∈ entries.map Prod.fst) ∧
    (∀ g v, v ∈ nodesOf g → v ∈ (closeGraph g).map Prod.fst) ∧
    (∀ g v, v ∈ nodesOf g → alookup g v = none →
      alookup (closeGraph g) v = some []) ∧
    closeGraph [("A", [("B", (5 : ℚ))])] = [("A", [("B", (5 : ℚ))]), ("B", [])] := by
  refine ⟨?_, ?_, ?_, by decide⟩
  · intro entries g h k
    have := mem_keys_normalizeData entries [] g h k
    simpa using this
  · intro g v hv
    rw [keys_closeGraph]
    simpa [List.mem_dedup] using hv
  · intro g v hv hnone
    rw [alookup_closeGraph, if_pos hv]
    simp [adjOf, hnone, closeAdj]

/-- Claim C1, amended witness: the closure fact applied to the stored
scenario-E graph and its undeclared neighbour target "B". -/
theorem claim_C1_amended_witness :
    "B" ∈ nodesOf [("A", [("B", (5 : ℚ))])] ∧
      alookup ([("A", [("B", (5 : ℚ))])] : Graph) "B" = none ∧
      alookup (closeGraph [("A", [("B", (5 : ℚ))])]) "B" = some [] :=
  ⟨by decide, by decide,
    claim_C1_amended.2.2.1 [("A", [("B", (5 : ℚ))])] "B" (by decide) (by decide)⟩

/-! Claim C2.  The claim asserts every stored edge weight is
non-negative.  The code coerces weights with float() and performs no
sign check (server.py line 64), so a negative weight is stored as-is. -/

/-- Claim C2, counterexample: uploading \x7b"A": \x7b"B": -1\x7d\x7d succeeds
and stores the negative weight -1. -/
theorem claim_C2_counterexample :
    create_upload_file none "graph.json"
        (some (.jobj [("A", .jobj [("B", .jint (-1))])])) =
      (some [("A", [("B", (-1 : ℚ))])], .uploadSuccess "graph.json") ∧
      (-1 : ℚ) < 0 := by
  refine ⟨by decide, by norm_num⟩

/-- Claim C2, amended: stored weights are exactly the float() coercions
of the uploaded values, finite numbers with no sign restriction: every
rational weight w, negative ones included, is accepted and stored
verbatim. -/
theorem claim_C2_amended :
    ∀ w : ℚ, create_upload_file none "graph.json"
        (some (.jobj [("A", .jobj [("B", .jfloat w)])])) =
      (some [("A", [("B", w)])], .uploadSuccess "graph.json") :=
  fun _ => rfl

/-- Claim C5: every failing upload (wrong extension, unparseable
payload, non-object top level, a coercion that raises, or an empty
resulting node set — all the error branches of create_upload_file)
leaves the active graph unchanged. -/
theorem claim_C5 :
    ∀ (st : Option Graph) (fn : String) (pl : Option JValue) (m : String),
      (create_upload_file st fn pl).2 = .uploadError m →
      (create_upload_file st fn pl).1 = st := by
  intro st fn pl m h
  rcases upload_preserves_or_success st fn pl with h1 | ⟨fn₂, h2⟩
  · exact h1
  · rw [h2] at h
    cases h

/-- Claim C5, witness: a wrong-extension upload fails and leaves the
previously active graph in place. -/
theorem claim_C5_witness :
    (create_upload_file (some [("X", [])]) "graph.txt"
        (some (.jobj [("A", .jobj [])]))).2 = .uploadError "Invalid file type" ∧
      (create_upload_file (some [("X", [])]) "graph.txt"
        (some (.jobj [("A", .jobj [])]))).1 = some [("X", [])] :=
  ⟨by decide,
    claim_C5 (some [("X", [])]) "graph.txt" (some (.jobj [("A", .jobj [])]))
      "Invalid file type" (by decide)⟩

/-- Claim C6: with no active graph every solve request yields the
distinct no-active-graph error; with an active graph, a start or end id
outside the node set (keys plus neighbour targets) yields the distinct
invalid-node error; both are produced by the guards before the Dijkstra
loop.  Scenario B (querying undeclared C) and scenario C (no upload
yet) are included concretely. -/
theorem claim_C6 :
    (∀ s e, get_shortest_path none s e =
      .solverError "No active graph, please upload a graph first.") ∧
    (∀ g s e, g ≠ [] → (s ∉ nodesOf g ∨ e ∉ nodesOf g) →
      get_shortest_path (some g) s e =
        .solverError "Invalid start or end node ID.") ∧
    get_shortest_path (some [("A", [("B", (1 : ℚ))])]) "A" "C" =
      .solverError "Invalid start or end node ID." ∧
    get_shortest_path none "A" "B" =
      .solverError "No active graph, please upload a graph first." := by
  refine ⟨fun s e => rfl, ?_, by decide, rfl⟩
  intro g s e hne hout
  have hempty : g.isEmpty = false := by
    cases g with
    | nil => exact absurd rfl hne
    | cons p rest => rfl
  simp only [get_shortest_path, hempty, Bool.false_eq_true, if_false]
  rw [if_pos hout]

/-- Claim C6, witness: the invalid-node guard applied to scenario B. -/
theorem claim_C6_witness :
    ([("A", [("B", (1 : ℚ))])] : Graph) ≠ [] ∧
      ("A" ∉ nodesOf [("A", [("B", (1 : ℚ))])] ∨
        "C" ∉ nodesOf [("A", [("B", (1 : ℚ))])]) ∧
      get_shortest_path (some [("A", [("B", (1 : ℚ))])]) "A" "C" =
        .solverError "Invalid start or end node ID." :=
  ⟨by decide, by decide,
    claim_C6.2.1 [("A", [("B", (1 : ℚ))])] "A" "C" (by decide) (by decide)⟩

/-- Claim C7: the edge-list loop drops exactly the unusable elements —
non-mappings, elements without "to", and elements whose chosen weight
value is missing (in particular when both weight keys are absent) —
while the usable elements are normalized unchanged; filtering the
unusable elements away does not change the result.  A concrete list
with malformed entries around one good entry is included. -/
theorem claim_C7 :
    (∀ acc l, coerceEdgeList acc l = coerceEdgeList acc (l.filter usableEdge)) ∧
    (∀ e, (∀ m, e ≠ .jobj m) → usableEdge e = false) ∧
    (∀ m, alookup m "to" = none → usableEdge (.jobj m) = false) ∧
    (∀ m, alookup m "distance" = none → alookup m "weight" = none →
      usableEdge (.jobj m) = false) ∧
    coerceEdgeList []
        [.jint 3, .jobj [("distance", .jint 9)],
         .jobj [("to", .jstr "B"), ("distance", .jint 5)],
         .jobj [("to", .jstr "C")]] = some [("B", (5 : ℚ))] := by
  refine ⟨fun acc l => coerceEdgeList_filter_usable l acc, ?_, ?_, ?_, by decide⟩
  · intro e he
    cases e with
    | jobj m => exact absurd rfl (he m)
    | jstr s => rfl
    | jint n => rfl
    | jfloat q => rfl
    | jbool b => rfl
    | jnull => rfl
    | jarr l => rfl
  · intro m hto
    simp [usableEdge, hto]
  · intro m hd hw
    simp [usableEdge, effWeight, hd, hw]

/-- Claim C7, witness: an element lacking both weight keys is unusable. -/
theorem claim_C7_witness :
    alookup [("to", JValue.jstr "B")] "distance" = none ∧
      alookup [("to", JValue.jstr "B")] "weight" = none ∧
      usableEdge (.jobj [("to", JValue.jstr "B")]) = false :=
  ⟨rfl, rfl, claim_C7.2.2.2.1 [("to", JValue.jstr "B")] rfl rfl⟩

/-- Claim C8: the direct weight-mapping representation and the
equivalent edge-list representation of the same graph normalize to
identical canonical Graph structures, both entry-wise and for a whole
uploaded payload. -/
theorem claim_C8 :
    (∀ adj : List (String × ℚ),
      normalizeEntry (dictForm adj) = normalizeEntry (edgeListForm adj)) ∧
    (∀ G : List (String × List (String × ℚ)),
      normalizeData [] (G.map (fun p => (p.1, dictForm p.2))) =
        normalizeData [] (G.map (fun p => (p.1, edgeListForm p.2)))) ∧
    (∀ (st : Option Graph) (fn : String)
        (G : List (String × List (String × ℚ))),
      create_upload_file st fn (some (.jobj (G.map (fun p => (p.1, dictForm p.2))))) =
        create_upload_file st fn
          (some (.jobj (G.map (fun p => (p.1, edgeListForm p.2)))))) := by
  refine ⟨?_, fun G => normalizeData_dict_eq_edgeList G [], ?_⟩
  · intro adj
    simpa [normalizeEntry, dictForm, edgeListForm] using
      coerce_dict_eq_edgeList adj []
  · intro st fn G
    simp only [create_upload_file, normalizeData_dict_eq_edgeList G []]

/-- Claim C9: a solve call reads the active graph and never writes it,
so the state passes through unchanged, and re-running solve on the same
snapshot with the same endpoints yields an identical response. -/
theorem claim_C9 :
    ∀ (st : Option Graph) (s e : String),
      (solveStep st s e).1 = st ∧
        (solveStep ((solveStep st s e).1) s e).2 = (solveStep st s e).2 :=
  fun _ _ _ => ⟨rfl, rfl⟩

/-- Claim C10: when an edge element carries a "distance" key its value
is used and "weight" is ignored, and when that "distance" value is null
the element is skipped entirely, even when a usable "weight" value is
present; both behaviours are exercised concretely. -/
theorem claim_C10 :
    (∀ (acc : Adj) m toVal d, alookup m "to" = some toVal →
      alookup m "distance" = some d → d ≠ .jnull →
      processEdge acc (.jobj m) =
        (pyFloat d).map (fun q => insertPy acc (pyStr toVal) q)) ∧
    (∀ (acc : Adj) m toVal, alookup m "to" = some toVal →
      alookup m "distance" = some .jnull →
      processEdge acc (.jobj m) = some acc) ∧
    coerceEdgeList []
        [.jobj [("to", .jstr "B"), ("distance", .jnull), ("weight", .jint 5)]] =
      some [] ∧
    coerceEdgeList []
        [.jobj [("to", .jstr "B"), ("distance", .jint 2), ("weight", .jint 7)]] =
      some [("B", (2 : ℚ))] := by
  refine ⟨?_, ?_, by decide, by decide⟩
  · intro acc m toVal d hto hd hnull
    cases d with
    | jnull => exact absurd rfl hnull
    | jstr s =>
        simp only [processEdge, effWeight, hto, hd, pyFloat]
        cases hq : parseDec s <;> simp [hq, Option.map]
    | jint n => simp [processEdge, effWeight, hto, hd, pyFloat, Option.map]
    | jfloat q => simp [processEdge, effWeight, hto, hd, pyFloat, Option.map]
    | jbool b => simp [processEdge, effWeight, hto, hd, pyFloat, Option.map]
    | jarr l => simp [processEdge, effWeight, hto, hd, pyFloat]
    | jobj m₂ => simp [processEdge, effWeight, hto, hd, pyFloat]
  · intro acc m toVal hto hd
    simp [processEdge, effWeight, hto, hd]

/-! Queue-order lemmas. -/

theorem pqLe_fst {a b : ℚ × String} (h : pqLe a b) : a.1 ≤ b.1 := by
  rcases h with h | ⟨h, _⟩
  · exact le_of_lt h
  · exact le_of_eq h

theorem pqLe_total (a b : ℚ × String) : pqLe a b ∨ pqLe b a := by
  unfold pqLe
  rcases lt_trichotomy a.1 b.1 with h | h | h
  · exact .inl (.inl h)
  · rcases le_total a.2 b.2 with h2 | h2
    · exact .inl (.inr ⟨h, h2⟩)
    · exact .inr (.inr ⟨h.symm, h2⟩)
  · exact .inr (.inl h)

theorem pqLe_trans {a b c : ℚ × String} (h1 : pqLe a b) (h2 : pqLe b c) :
    pqLe a c := by
  rcases h1 with h1 | ⟨h1, h1b⟩ <;> rcases h2 with h2 | ⟨h2, h2b⟩
  · exact .inl (h1.trans h2)
  · exact .inl (h2 ▸ h1)
  · exact .inl (h1 ▸ h2)
  · exact .inr ⟨h1.trans h2, h1b.trans h2b⟩

theorem popMin_eq_none_iff (l : List (ℚ × String)) :
    popMin l = none ↔ l = [] := by
  cases l with
  | nil => simp [popMin]
  | cons x xs =>
      simp only [popMin]
      cases popMin xs with
      | none => simp
      | some p =>
          obtain ⟨m, rest⟩ := p
          by_cases h : pqLe x m <;> simp [h]

theorem popMin_perm {l : List (ℚ × String)} {x : ℚ × String}
    {rest : List (ℚ × String)} (h : popMin l = some (x, rest)) :
    l.Perm (x :: rest) := by
  induction l generalizing x rest with
  | nil => simp [popMin] at h
  | cons a xs ih =>
      simp only [popMin] at h
      cases hx : popMin xs with
      | none =>
          have hxs : xs = [] := (popMin_eq_none_iff xs).mp hx
          simp only [hx, Option.some_inj, Prod.mk.injEq] at h
          subst hxs
          rw [← h.1, ← h.2]
      | some p =>
          obtain ⟨m, mrest⟩ := p
          simp only [hx] at h
          by_cases hle : pqLe a m
          · rw [if_pos hle] at h
            simp only [Option.some_inj, Prod.mk.injEq] at h
            rw [← h.1, ← h.2]
          · rw [if_neg hle] at h
            simp only [Option.some_inj, Prod.mk.injEq] at h
            have hperm := ih hx
            have hstep : (a :: xs).Perm (m :: (a :: mrest)) :=
              (hperm.cons a).trans (List.Perm.swap m a mrest)
            rw [h.1, h.2] at hstep
            exact hstep

theorem popMin_min {l : List (ℚ × String)} {x : ℚ × String}
    {rest : List (ℚ × String)} (h : popMin l = some (x, rest)) :
    ∀ y ∈ l, pqLe x y := by
  induction l generalizing x rest with
  | nil => simp [popMin] at h
  | cons a xs ih =>
      simp only [popMin] at h
      cases hx : popMin xs with
      | none =>
          have hxs : xs = [] := (popMin_eq_none_iff xs).mp hx
          simp only [hx, Option.some_inj, Prod.mk.injEq] at h
          subst hxs
          intro y hy
          simp only [List.mem_singleton] at hy
          subst hy
          rw [← h.1]
          rcases pqLe_total y y with hr | hr <;> exact hr
      | some p =>
          obtain ⟨m, mrest⟩ := p
          simp only [hx] at h
          by_cases hle : pqLe a m
          · rw [if_pos hle] at h
            simp only [Option.some_inj, Prod.mk.injEq] at h
            intro y hy
            rw [← h.1]
            rcases List.mem_cons.mp hy with hy | hy
            · subst hy
              rcases pqLe_total y y with hr | hr <;> exact hr
            · exact pqLe_trans hle (ih hx y hy)
          · rw [if_neg hle] at h
            simp only [Option.some_inj, Prod.mk.injEq] at h
            intro y hy
            rw [← h.1]
            rcases List.mem_cons.mp hy with hy | hy
            · subst hy
              rcases pqLe_total m y with hr | hr
              · exact hr
              · exact absurd hr hle
            · exact ih hx y hy

/-! More association-list and graph lemmas. -/

theorem alookup_of_mem_nodup {α : Type} {l : List (String × α)} {k : String}
    {v : α} (hmem : (k, v) ∈ l) (hnd : (l.map Prod.fst).Nodup) :
    alookup l k = some v := by
  induction l with
  | nil => simp at hmem
  | cons p rest ih =>
      obtain ⟨k₀, v₀⟩ := p
      simp only [List.map_cons, List.nodup_cons] at hnd
      rcases List.mem_cons.mp hmem with hmem2 | hmem2
      · simp only [Prod.mk.injEq] at hmem2
        simp [alookup, hmem2.1, hmem2.2]
      · have hk : k₀ ≠ k := by
          intro hkk
          subst hkk
          exact hnd.1 (List.mem_map.mpr ⟨(k₀, v), hmem2, rfl⟩)
        simp [alookup, hk, ih hmem2 hnd.2]

theorem closeAdj_keys_nodup (adj : Adj) :
    ((closeAdj adj).map Prod.fst).Nodup := by
  suffices hgen : ∀ (l acc : Adj), (acc.map Prod.fst).Nodup →
      ((l.foldl (fun acc p => insertPy acc p.1 p.2) acc).map Prod.fst).Nodup by
    exact hgen adj [] (by simp)
  intro l
  induction l with
  | nil => intro acc h; exact h
  | cons p rest ih =>
      intro acc h
      exact ih (insertPy acc p.1 p.2) (nodup_keys_insertPy h p.1 p.2)

theorem adjOf_closeGraph_nodup (g : Graph) (u : String) :
    ((adjOf (closeGraph g) u).map Prod.fst).Nodup := by
  rw [adjOf, alookup_closeGraph]
  by_cases hu : u ∈ nodesOf g
  · rw [if_pos hu]
    exact closeAdj_keys_nodup (adjOf g u)
  · rw [if_neg hu]
    simp

theorem edgeW_target_mem {g : Graph} {u v : String} {w : ℚ}
    (h : edgeW g u v = some w) : v ∈ nodesOf g := by
  rw [edgeW, adjOf] at h
  cases hl : alookup g u with
  | none => rw [hl] at h; simp [alookup] at h
  | some adj =>
      rw [hl] at h
      simp only [Option.getD_some] at h
      have hv : (v, w) ∈ adj := alookup_mem h
      have hu : (u, adj) ∈ g := alookup_mem hl
      simp only [nodesOf, List.mem_append, List.mem_flatten]
      exact .inr ⟨adj.map Prod.fst, List.mem_map.mpr ⟨(u, adj), hu, rfl⟩,
        List.mem_map.mpr ⟨(v, w), hv, rfl⟩⟩

/-! Path lemmas: snoc extension and the bridge between list paths and
the Reaches relation. -/

theorem chainOk_snoc {g : Graph} {p : List String} {x v : String} {w : ℚ}
    (hp : chainOk g p = true) (hlast : p.getLast? = some x)
    (hedge : edgeW g x v = some w) : chainOk g (p ++ [v]) = true := by
  induction p generalizing x with
  | nil => simp at hlast
  | cons a t ih =>
      cases t with
      | nil =>
          simp only [List.getLast?_singleton, Option.some_inj] at hlast
          subst hlast
          simp [chainOk, hedge]
      | cons b t2 =>
          rw [List.getLast?_cons_cons] at hlast
          simp only [chainOk, Bool.and_eq_true] at hp
          have hrec := ih hp.2 hlast hedge
          simp only [List.cons_append, chainOk, Bool.and_eq_true] at hrec ⊢
          exact ⟨hp.1, hrec⟩

theorem pathWeight_snoc {g : Graph} {p : List String} {x v : String} {w : ℚ}
    (hlast : p.getLast? = some x) (hedge : edgeW g x v = some w) :
    pathWeight g (p ++ [v]) = pathWeight g p + w := by
  induction p generalizing x with
  | nil => simp at hlast
  | cons a t ih =>
      cases t with
      | nil =>
          simp only [List.getLast?_singleton, Option.some_inj] at hlast
          subst hlast
          simp [pathWeight, hedge]
      | cons b t2 =>
          rw [List.getLast?_cons_cons] at hlast
          have hrec := ih hlast hedge
          simp only [List.cons_append, List.append_eq, pathWeight] at hrec ⊢
          rw [hrec]
          ring

theorem reaches_of_chain {g : Graph} {s : String} :
    ∀ (rest : List String) {x e : String} {d : ℚ}, Reaches g s x d →
      chainOk g (x :: rest) = true → (x :: rest).getLast? = some e →
      Reaches g s e (d + pathWeight g (x :: rest)) := by
  intro rest
  induction rest with
  | nil =>
      intro x e d hx _ hlast
      simp only [List.getLast?_singleton, Option.some_inj] at hlast
      subst hlast
      simpa [pathWeight] using hx
  | cons y t ih =>
      intro x e d hx hchain hlast
      simp only [chainOk, Bool.and_eq_true, Option.isSome_iff_exists] at hchain
      obtain ⟨⟨w, hw⟩, hrest⟩ := hchain
      have hy : Reaches g s y (d + w) := hx.step hw
      rw [List.getLast?_cons_cons] at hlast
      have hres := ih hy hrest hlast
      have harith : d + w + pathWeight g (y :: t) =
          d + pathWeight g (x :: y :: t) := by
        simp only [pathWeight, hw, Option.getD_some]
        ring
      rw [harith] at hres
      exact hres

theorem reaches_of_isPathFrom {g : Graph} {s e : String} {p : List String}
    (h : IsPathFrom g s e p) : Reaches g s e (pathWeight g p) := by
  obtain ⟨hhead, hlast, hchain⟩ := h
  cases p with
  | nil => simp at hhead
  | cons a t =>
      simp only [List.head?_cons, Option.some_inj] at hhead
      subst hhead
      have hres := reaches_of_chain t Reaches.refl hchain hlast
      rw [zero_add] at hres
      exact hres

theorem isPathFrom_of_reaches {g : Graph} {s v : String} {d : ℚ}
    (h : Reaches g s v d) : ∃ p, IsPathFrom g s v p ∧ pathWeight g p = d := by
  induction h with
  | refl => exact ⟨[s], ⟨rfl, rfl, rfl⟩, rfl⟩
  | step hr hedge ih =>
      obtain ⟨p, ⟨hhead, hlast, hchain⟩, hweight⟩ := ih
      refine ⟨p ++ [_], ⟨?_, List.getLast?_concat p, chainOk_snoc hchain hlast hedge⟩, ?_⟩
      · cases p with
        | nil => simp at hhead
        | cons a t => simpa using hhead
      · rw [pathWeight_snoc hlast hedge, hweight]

theorem reaches_nonneg {g : Graph} {s v : String} {d : ℚ}
    (hnn : ∀ u v w, edgeW g u v = some w → 0 ≤ w) (h : Reaches g s v d) :
    0 ≤ d := by
  induction h with
  | refl => exact le_refl 0
  | step hr hedge ih => exact add_nonneg ih (hnn _ _ _ hedge)

/-! Congruence: two graphs with the same adjacency function support the
same paths. -/

theorem chainOk_congr {g₁ g₂ : Graph}
    (h : ∀ u v, edgeW g₁ u v = edgeW g₂ u v) (p : List String) :
    chainOk g₁ p = chainOk g₂ p := by
  induction p with
  | nil => rfl
  | cons a t ih =>
      cases t with
      | nil => rfl
      | cons b t2 =>
          simp only [chainOk, h a b]
          rw [ih]

theorem pathWeight_congr {g₁ g₂ : Graph}
    (h : ∀ u v, edgeW g₁ u v = edgeW g₂ u v) (p : List String) :
    pathWeight g₁ p = pathWeight g₂ p := by
  induction p with
  | nil => rfl
  | cons a t ih =>
      cases t with
      | nil => rfl
      | cons b t2 =>
          simp only [pathWeight, h a b]
          rw [show pathWeight g₁ (b :: t2) = pathWeight g₂ (b :: t2) from ih]

theorem isPathFrom_congr {g₁ g₂ : Graph}
    (h : ∀ u v, edgeW g₁ u v = edgeW g₂ u v) (s e : String) (p : List String) :
    IsPathFrom g₁ s e p ↔ IsPathFrom g₂ s e p := by
  unfold IsPathFrom
  rw [chainOk_congr h]

theorem reaches_congr {g₁ g₂ : Graph}
    (h : ∀ u v, edgeW g₁ u v = edgeW g₂ u v) {s v : String} {d : ℚ} :
    Reaches g₁ s v d ↔ Reaches g₂ s v d := by
  constructor
  · intro hr
    induction hr with
    | refl => exact .refl
    | step hr hedge ih => exact ih.step (h _ _ ▸ hedge)
  · intro hr
    induction hr with
    | refl => exact .refl
    | step hr hedge ih => exact ih.step ((h _ _).symm ▸ hedge)

/-! Reconstruction lemmas. -/

theorem reconstruct_mono {prev : List (String × String)} {s : String} :
    ∀ {n m : ℕ} {x : String} {p : List String}, n ≤ m →
      reconstruct prev s n x = some p → reconstruct prev s m x = some p := by
  intro n
  induction n with
  | zero => intro m x p _ h; simp [reconstruct] at h
  | succ k ih =>
      intro m x p hnm h
      obtain ⟨m2, rfl⟩ : ∃ m2, m = m2 + 1 :=
        ⟨m - 1, by omega⟩
      simp only [reconstruct] at h ⊢
      by_cases hx : x = s
      · rw [if_pos hx] at h ⊢
        exact h
      · rw [if_neg hx] at h ⊢
        cases hl : alookup prev x with
        | none =>
            simp only [hl] at h
            cases h
        | some parent =>
            simp only [hl] at h ⊢
            cases hr : reconstruct prev s k parent with
            | none => simp [hr] at h
            | some p0 =>
                simp only [hr, Option.map_some', Option.some_inj] at h
                rw [ih (by omega) hr]
                simp [h]

theorem reconstruct_self_mem {prev : List (String × String)} {s : String} :
    ∀ {n : ℕ} {x : String} {p : List String},
      reconstruct prev s n x = some p → x ∈ p := by
  intro n
  induction n with
  | zero => intro x p h; simp [reconstruct] at h
  | succ k ih =>
      intro x p h
      simp only [reconstruct] at h
      by_cases hx : x = s
      · rw [if_pos hx] at h
        simp only [Option.some_inj] at h
        subst h
        simp [hx]
      · rw [if_neg hx] at h
        cases hl : alookup prev x with
        | none =>
            simp only [hl] at h
            cases h
        | some parent =>
            simp only [hl] at h
            cases hr : reconstruct prev s k parent with
            | none => simp [hr] at h
            | some p0 =>
                simp only [hr, Option.map_some', Option.some_inj] at h
                subst h
                simp

theorem reconstruct_insertPy_not_mem {prev : List (String × String)}
    {s y : String} (z : String) :
    ∀ {n : ℕ} {x : String} {p : List String},
      reconstruct prev s n x = some p → y ∉ p →
      reconstruct (insertPy prev y z) s n x = some p := by
  intro n
  induction n with
  | zero => intro x p h; simp [reconstruct] at h
  | succ k ih =>
      intro x p h hy
      simp only [reconstruct] at h ⊢
      by_cases hx : x = s
      · rw [if_pos hx] at h ⊢
        exact h
      · rw [if_neg hx] at h ⊢
        cases hl : alookup prev x with
        | none =>
            simp only [hl] at h
            cases h
        | some parent =>
            simp only [hl] at h
            cases hr : reconstruct prev s k parent with
            | none => simp [hr] at h
            | some p0 =>
                simp only [hr, Option.map_some', Option.some_inj] at h
                have hxy : x ≠ y := by
                  intro hxy
                  subst hxy
                  exact hy (by rw [← h]; simp)
                rw [alookup_insertPy_ne prev z hxy]
                simp only [hl]
                rw [ih hr (fun hmem => hy (by rw [← h]; simp [hmem]))]
                simp [h]

/-- Claim C10, witness: the precedence fact applied to an element
carrying distance 2 and weight 7. -/
theorem claim_C10_witness :
    alookup [("to", JValue.jstr "B"), ("distance", JValue.jint 2),
        ("weight", JValue.jint 7)] "to" = some (JValue.jstr "B") ∧
      alookup [("to", JValue.jstr "B"), ("distance", JValue.jint 2),
        ("weight", JValue.jint 7)] "distance" = some (JValue.jint 2) ∧
      processEdge []
          (.jobj [("to", JValue.jstr "B"), ("distance", JValue.jint 2),
            ("weight", JValue.jint 7)]) =
        (pyFloat (JValue.jint 2)).map (fun q => insertPy [] (pyStr (JValue.jstr "B")) q) :=
  ⟨rfl, rfl,
    claim_C10.1 [] [("to", JValue.jstr "B"), ("distance", JValue.jint 2),
      ("weight", JValue.jint 7)] (JValue.jstr "B") (JValue.jint 2) rfl rfl
      (fun h => JValue.noConfusion h)⟩

/-! Structural lemmas about the relaxation loop. -/

section RelaxLemmas

variable {u : String} {cd : ℚ}

theorem relax_dist_mono : ∀ (l : Adj) (st : DState) {v : String} {dv : ℚ},
    alookup st.dist v = some dv →
    ∃ dv2, alookup (relaxEdges u cd st l).dist v = some dv2 ∧ dv2 ≤ dv := by
  intro l
  induction l with
  | nil => intro st v dv h; exact ⟨dv, h, le_refl dv⟩
  | cons e rest ih =>
      intro st v dv h
      obtain ⟨v₀, w₀⟩ := e
      cases hl : alookup st.dist v₀ with
      | none =>
          simp only [relaxEdges, hl]
          by_cases hvv : v = v₀
          · subst hvv
            rw [h] at hl
            cases hl
          · have hpres : alookup (insertPy st.dist v₀ (cd + w₀)) v = some dv := by
              rw [alookup_insertPy_ne st.dist (cd + w₀) hvv]
              exact h
            exact ih ⟨(cd + w₀, v₀) :: st.pq, insertPy st.dist v₀ (cd + w₀),
              insertPy st.prev v₀ u⟩ hpres
      | some dv₀ =>
          by_cases hlt : cd + w₀ < dv₀
          · simp only [relaxEdges, hl, if_pos hlt]
            by_cases hvv : v = v₀
            · subst hvv
              rw [h] at hl
              have hdv : dv₀ = dv := Option.some_inj.mp hl.symm
              obtain ⟨dv2, h2, hle⟩ :=
                ih ⟨(cd + w₀, v) :: st.pq, insertPy st.dist v (cd + w₀),
                  insertPy st.prev v u⟩ (alookup_insertPy_self st.dist v (cd + w₀))
              exact ⟨dv2, h2, hle.trans (le_of_lt (hdv ▸ hlt))⟩
            · have hpres : alookup (insertPy st.dist v₀ (cd + w₀)) v = some dv := by
                rw [alookup_insertPy_ne st.dist (cd + w₀) hvv]
                exact h
              exact ih ⟨(cd + w₀, v₀) :: st.pq, insertPy st.dist v₀ (cd + w₀),
                insertPy st.prev v₀ u⟩ hpres
          · simp only [relaxEdges, hl, if_neg hlt]
            exact ih st h

theorem relax_pq_sub : ∀ (l : Adj) (st : DState) {x : ℚ × String},
    x ∈ st.pq → x ∈ (relaxEdges u cd st l).pq := by
  intro l
  induction l with
  | nil => intro st x h; exact h
  | cons e rest ih =>
      intro st x h
      obtain ⟨v₀, w₀⟩ := e
      cases hl : alookup st.dist v₀ with
      | none =>
          simp only [relaxEdges, hl]
          exact ih ⟨(cd + w₀, v₀) :: st.pq, insertPy st.dist v₀ (cd + w₀),
            insertPy st.prev v₀ u⟩ (List.mem_cons_of_mem _ h)
      | some dv₀ =>
          by_cases hlt : cd + w₀ < dv₀
          · simp only [relaxEdges, hl, if_pos hlt]
            exact ih ⟨(cd + w₀, v₀) :: st.pq, insertPy st.dist v₀ (cd + w₀),
              insertPy st.prev v₀ u⟩ (List.mem_cons_of_mem _ h)
          · simp only [relaxEdges, hl, if_neg hlt]
            exact ih st h

theorem relax_pq_len : ∀ (l : Adj) (st : DState),
    (relaxEdges u cd st l).pq.length ≤ st.pq.length + l.length := by
  intro l
  induction l with
  | nil => intro st; simp [relaxEdges]
  | cons e rest ih =>
      intro st
      obtain ⟨v₀, w₀⟩ := e
      cases hl : alookup st.dist v₀ with
      | none =>
          simp only [relaxEdges, hl]
          have := ih ⟨(cd + w₀, v₀) :: st.pq, insertPy st.dist v₀ (cd + w₀),
            insertPy st.prev v₀ u⟩
          simp only [List.length_cons] at this
          simpa [Nat.succ_eq_add_one] using this.trans (by omega)
      | some dv₀ =>
          by_cases hlt : cd + w₀ < dv₀
          · simp only [relaxEdges, hl, if_pos hlt]
            have := ih ⟨(cd + w₀, v₀) :: st.pq, insertPy st.dist v₀ (cd + w₀),
              insertPy st.prev v₀ u⟩
            simp only [List.length_cons] at this
            simpa [Nat.succ_eq_add_one] using this.trans (by omega)
          · simp only [relaxEdges, hl, if_neg hlt]
            exact (ih st).trans (by simp only [List.length_cons]; omega)

theorem relax_relaxed : ∀ (l : Adj) (st : DState) {v : String} {w : ℚ},
    (v, w) ∈ l →
    ∃ dv, alookup (relaxEdges u cd st l).dist v = some dv ∧ dv ≤ cd + w := by
  intro l
  induction l with
  | nil => intro st v w h; simp at h
  | cons e rest ih =>
      intro st v w hmem
      obtain ⟨v₀, w₀⟩ := e
      rcases List.mem_cons.mp hmem with hmem2 | hmem2
      · simp only [Prod.mk.injEq] at hmem2
        obtain ⟨hv, hw⟩ := hmem2
        subst hv
        subst hw
        cases hl : alookup st.dist v with
        | none =>
            simp only [relaxEdges, hl]
            obtain ⟨dv2, h2, hle⟩ := relax_dist_mono rest
              ⟨(cd + w, v) :: st.pq, insertPy st.dist v (cd + w),
                insertPy st.prev v u⟩
              (alookup_insertPy_self st.dist v (cd + w))
            exact ⟨dv2, h2, hle⟩
        | some dv₀ =>
            by_cases hlt : cd + w < dv₀
            · simp only [relaxEdges, hl, if_pos hlt]
              obtain ⟨dv2, h2, hle⟩ := relax_dist_mono rest
                ⟨(cd + w, v) :: st.pq, insertPy st.dist v (cd + w),
                  insertPy st.prev v u⟩
                (alookup_insertPy_self st.dist v (cd + w))
              exact ⟨dv2, h2, hle⟩
            · simp only [relaxEdges, hl, if_neg hlt]
              obtain ⟨dv2, h2, hle⟩ := relax_dist_mono rest st hl
              exact ⟨dv2, h2, hle.trans (not_lt.mp hlt)⟩
      · cases hl : alookup st.dist v₀ with
        | none =>
            simp only [relaxEdges, hl]
            exact ih ⟨(cd + w₀, v₀) :: st.pq, insertPy st.dist v₀ (cd + w₀),
              insertPy st.prev v₀ u⟩ hmem2
        | some dv₀ =>
            by_cases hlt : cd + w₀ < dv₀
            · simp only [relaxEdges, hl, if_pos hlt]
              exact ih ⟨(cd + w₀, v₀) :: st.pq, insertPy st.dist v₀ (cd + w₀),
                insertPy st.prev v₀ u⟩ hmem2
            · simp only [relaxEdges, hl, if_neg hlt]
              exact ih st hmem2

theorem relax_noop : ∀ (l : Adj) (st : DState),
    (∀ p ∈ l, ∃ dv, alookup st.dist p.1 = some dv ∧ dv ≤ cd + p.2) →
    relaxEdges u cd st l = st := by
  intro l
  induction l with
  | nil => intro st _; rfl
  | cons e rest ih =>
      intro st hcond
      obtain ⟨v₀, w₀⟩ := e
      obtain ⟨dv, hdv, hle⟩ := hcond (v₀, w₀) (by simp)
      simp only at hdv hle
      rw [show relaxEdges u cd st ((v₀, w₀) :: rest) =
        relaxEdges u cd st rest from by
          simp only [relaxEdges, hdv, if_neg (not_lt.mpr hle)]]
      exact ih st (fun p hp => hcond p (List.mem_cons_of_mem _ hp))

end RelaxLemmas

/-- One relaxation step that fires (the target is undiscovered or
strictly improved) preserves the relaxation invariant: the updated
target is unsettled, acquires distance cd + w, predecessor u, and a
fresh queue entry. -/
theorem relax_step_update {cg : Graph} {s : String} {S : List String}
    {u : String} {cd : ℚ}
    (hnn : ∀ a b w, edgeW cg a b = some w → 0 ≤ w)
    (hu : u ∈ S) {st : DState} (R : RelaxState cg s S u cd st)
    {v : String} {w : ℚ} (hvw : edgeW cg u v = some w)
    (hcond : ∀ dv, alookup st.dist v = some dv → cd + w < dv) :
    RelaxState cg s S u cd
      ⟨(cd + w, v) :: st.pq, insertPy st.dist v (cd + w),
        insertPy st.prev v u⟩ := by
  have hC := R.toInvCore
  have hcd0 : 0 ≤ cd := hC.distNonneg u cd R.distU
  have hw0 : 0 ≤ w := hnn u v w hvw
  have hRu : Reaches cg s u cd := hC.distSound u cd R.distU
  have hRv : Reaches cg s v (cd + w) := hRu.step hvw
  have hvS : v ∉ S := by
    intro hvs
    obtain ⟨dv0, hdv0⟩ := hC.settledSub v hvs
    have h1 : dv0 ≤ cd + w := hC.settledMin v hvs dv0 hdv0 (cd + w) hRv
    exact absurd (hcond dv0 hdv0) (not_lt.mpr h1)
  have hvns : v ≠ s := by
    intro hveq
    have h0 : alookup st.dist v = some 0 := by
      rw [hveq]
      exact hC.distStart
    have := hcond 0 h0
    linarith
  have huv : u ≠ v := fun h => hvS (h ▸ hu)
  refine ⟨⟨?_, ?_, ?_, ?_, ?_, ?_, ?_, ?_, ?_, ?_, ?_, ?_, ?_, ?_⟩, ?_, ?_⟩
  · exact nodup_keys_insertPy hC.distNodup v (cd + w)
  · exact nodup_keys_insertPy hC.prevNodup v u
  · show alookup (insertPy st.dist v (cd + w)) s = some 0
    rw [alookup_insertPy_ne st.dist (cd + w) (Ne.symm hvns)]
    exact hC.distStart
  · intro v₂ d₂ h₂
    by_cases hv₂ : v₂ = v
    · subst hv₂
      rw [alookup_insertPy_self st.dist v₂ (cd + w)] at h₂
      rw [← Option.some_inj.mp h₂]
      exact hRv
    · rw [alookup_insertPy_ne st.dist (cd + w) hv₂] at h₂
      exact hC.distSound v₂ d₂ h₂
  · intro v₂ d₂ h₂
    by_cases hv₂ : v₂ = v
    · subst hv₂
      rw [alookup_insertPy_self st.dist v₂ (cd + w)] at h₂
      rw [← Option.some_inj.mp h₂]
      exact add_nonneg hcd0 hw0
    · rw [alookup_insertPy_ne st.dist (cd + w) hv₂] at h₂
      exact hC.distNonneg v₂ d₂ h₂
  · intro v₂ d₂ h₂
    by_cases hv₂ : v₂ = v
    · subst hv₂
      exact Finset.mem_insert_of_mem (List.mem_toFinset.mpr (edgeW_target_mem hvw))
    · rw [alookup_insertPy_ne st.dist (cd + w) hv₂] at h₂
      exact hC.distMem v₂ d₂ h₂
  · exact hC.settledNodup
  · intro u₂ hu₂
    obtain ⟨du₂, h₂⟩ := hC.settledSub u₂ hu₂
    have hne : u₂ ≠ v := fun he => hvS (he ▸ hu₂)
    exact ⟨du₂, by rw [alookup_insertPy_ne st.dist (cd + w) hne]; exact h₂⟩
  · intro u₂ hu₂ du₂ h₂ w₂ hr₂
    have hne : u₂ ≠ v := fun he => hvS (he ▸ hu₂)
    rw [alookup_insertPy_ne st.dist (cd + w) hne] at h₂
    exact hC.settledMin u₂ hu₂ du₂ h₂ w₂ hr₂
  · intro v₂ d₂ h₂ hnot
    by_cases hv₂ : v₂ = v
    · subst hv₂
      rw [alookup_insertPy_self st.dist v₂ (cd + w)] at h₂
      rw [← Option.some_inj.mp h₂]
      exact List.mem_cons_self _ _
    · rw [alookup_insertPy_ne st.dist (cd + w) hv₂] at h₂
      exact List.mem_cons_of_mem _ (hC.frontier v₂ d₂ h₂ hnot)
  · intro d₂ v₂ hmem
    rcases List.mem_cons.mp hmem with he | hm
    · simp only [Prod.mk.injEq] at he
      obtain ⟨hd, hv⟩ := he
      subst hd
      subst hv
      exact ⟨cd + w, alookup_insertPy_self st.dist v₂ (cd + w), le_refl _⟩
    · obtain ⟨dv₂, hdv₂, hle₂⟩ := hC.pqSound d₂ v₂ hm
      by_cases hv₂ : v₂ = v
      · subst hv₂
        have hlt := hcond dv₂ hdv₂
        exact ⟨cd + w, alookup_insertPy_self st.dist v₂ (cd + w),
          le_of_lt (lt_of_lt_of_le hlt hle₂)⟩
      · exact ⟨dv₂, by rw [alookup_insertPy_ne st.dist (cd + w) hv₂]; exact hdv₂,
          hle₂⟩
  · intro v₂ r h₂
    by_cases hv₂ : v₂ = v
    · subst hv₂
      rw [alookup_insertPy_self st.prev v₂ u] at h₂
      rw [← Option.some_inj.mp h₂]
      refine ⟨hvns, hu, w, cd + w, cd, hvw,
        alookup_insertPy_self st.dist v₂ (cd + w), ?_, rfl⟩
      rw [alookup_insertPy_ne st.dist (cd + w) huv]
      exact R.distU
    · rw [alookup_insertPy_ne st.prev u hv₂] at h₂
      obtain ⟨hs₂, hrS, w₂, dv₂, du₂, hedge₂, hdv₂, hdu₂, heq₂⟩ :=
        hC.prevSound v₂ r h₂
      have hrv : r ≠ v := fun he => hvS (he ▸ hrS)
      refine ⟨hs₂, hrS, w₂, dv₂, du₂, hedge₂, ?_, ?_, heq₂⟩
      · rw [alookup_insertPy_ne st.dist (cd + w) hv₂]
        exact hdv₂
      · rw [alookup_insertPy_ne st.dist (cd + w) hrv]
        exact hdu₂
  · intro v₂ d₂ h₂ hne_s
    by_cases hv₂ : v₂ = v
    · subst hv₂
      exact ⟨u, alookup_insertPy_self st.prev v₂ u⟩
    · rw [alookup_insertPy_ne st.dist (cd + w) hv₂] at h₂
      obtain ⟨r, hr⟩ := hC.prevTotal v₂ d₂ h₂ hne_s
      exact ⟨r, by rw [alookup_insertPy_ne st.prev u hv₂]; exact hr⟩
  · intro x hx du₂ h₂
    have hxv : x ≠ v := by
      rcases hx with hx | hx
      · exact fun he => hvns (by rw [← he]; exact hx)
      · exact fun he => hvS (he ▸ hx)
    rw [alookup_insertPy_ne st.dist (cd + w) hxv] at h₂
    obtain ⟨p, n, hn, hrec, hpath, hweight, hnodes⟩ := hC.reconOk x hx du₂ h₂
    have hvp : v ∉ p := by
      intro hvp
      rcases hnodes v hvp with h | h
      · exact hvns h
      · exact hvS h
    exact ⟨p, n, hn, reconstruct_insertPy_not_mem u hrec hvp, hpath, hweight,
      hnodes⟩
  · intro u₂ hu₂ hne du₂ h₂ v₂ w₂ hedge₂
    have hu₂v : u₂ ≠ v := fun he => hvS (he ▸ hu₂)
    rw [alookup_insertPy_ne st.dist (cd + w) hu₂v] at h₂
    obtain ⟨dv₂, hdv₂, hle₂⟩ := R.settledRelaxOld u₂ hu₂ hne du₂ h₂ v₂ w₂ hedge₂
    by_cases hv₂ : v₂ = v
    · subst hv₂
      have hlt := hcond dv₂ hdv₂
      exact ⟨cd + w, alookup_insertPy_self st.dist v₂ (cd + w),
        le_of_lt (lt_of_lt_of_le hlt hle₂)⟩
    · exact ⟨dv₂, by rw [alookup_insertPy_ne st.dist (cd + w) hv₂]; exact hdv₂,
        hle₂⟩
  · show alookup (insertPy st.dist v (cd + w)) u = some cd
    rw [alookup_insertPy_ne st.dist (cd + w) huv]
    exact R.distU

/-- The whole relaxation loop over a list of real edges of u preserves
the relaxation invariant. -/
theorem relax_preserves {cg : Graph} {s : String} {S : List String}
    {u : String} {cd : ℚ}
    (hnn : ∀ a b w, edgeW cg a b = some w → 0 ≤ w) (hu : u ∈ S) :
    ∀ (l : Adj) (st : DState), (∀ p ∈ l, edgeW cg u p.1 = some p.2) →
      RelaxState cg s S u cd st →
      RelaxState cg s S u cd (relaxEdges u cd st l) := by
  intro l
  induction l with
  | nil => intro st _ R; exact R
  | cons e rest ih =>
      intro st hedges R
      obtain ⟨v₀, w₀⟩ := e
      have hvw : edgeW cg u v₀ = some w₀ := hedges (v₀, w₀) (by simp)
      have hrest : ∀ p ∈ rest, edgeW cg u p.1 = some p.2 :=
        fun p hp => hedges p (List.mem_cons_of_mem _ hp)
      cases hl : alookup st.dist v₀ with
      | none =>
          simp only [relaxEdges, hl]
          exact ih ⟨(cd + w₀, v₀) :: st.pq, insertPy st.dist v₀ (cd + w₀),
            insertPy st.prev v₀ u⟩ hrest
            (relax_step_update hnn hu R hvw
              (fun dv hdv => by rw [hl] at hdv; cases hdv))
      | some dv₀ =>
          by_cases hlt : cd + w₀ < dv₀
          · simp only [relaxEdges, hl, if_pos hlt]
            refine ih ⟨(cd + w₀, v₀) :: st.pq, insertPy st.dist v₀ (cd + w₀),
              insertPy st.prev v₀ u⟩ hrest
              (relax_step_update hnn hu R hvw ?_)
            intro dv hdv
            rw [hl] at hdv
            rw [← Option.some_inj.mp hdv]
            exact hlt
          · simp only [relaxEdges, hl, if_neg hlt]
            exact ih st hrest R

/-! The cut argument: when an entry of minimal key is popped, any path
from the start to its node weighs at least the node's recorded
distance. -/

theorem dijkstra_cut {cg : Graph} {s : String} {S : List String} {st : DState}
    (hnn : ∀ a b w, edgeW cg a b = some w → 0 ≤ w)
    (L : LoopInv cg s S st) {d : ℚ} {u₀ : String}
    (hmin : ∀ y ∈ st.pq, pqLe (d, u₀) y) :
    ∀ {v : String} {wp : ℚ}, Reaches cg s v wp →
      (v ∈ S ∧ ∃ dv, alookup st.dist v = some dv ∧ dv ≤ wp) ∨ d ≤ wp := by
  intro v wp hr
  induction hr with
  | refl =>
      by_cases hsS : s ∈ S
      · exact .inl ⟨hsS, 0, L.distStart, le_refl 0⟩
      · exact .inr (pqLe_fst (hmin _ (L.frontier s 0 L.distStart hsS)))
  | @step x v₂ dx w hx hedge ih =>
      rcases ih with ⟨hxS, dv0, hdv0, hle0⟩ | hd
      · obtain ⟨dv, hdv, hdvle⟩ := L.settledRelax x hxS dv0 hdv0 v₂ w hedge
        have hdvle2 : dv ≤ dx + w := by linarith
        by_cases hvS : v₂ ∈ S
        · exact .inl ⟨hvS, dv, hdv, hdvle2⟩
        · have hmem := L.frontier v₂ dv hdv hvS
          exact .inr ((pqLe_fst (hmin _ hmem)).trans hdvle2)
      · have hw0 : 0 ≤ w := hnn _ _ _ hedge
        exact .inr (by linarith)

theorem settle_min {cg : Graph} {s : String} {S : List String} {st : DState}
    (hnn : ∀ a b w, edgeW cg a b = some w → 0 ≤ w)
    (L : LoopInv cg s S st) {d : ℚ} {u : String} {rest : List (ℚ × String)}
    (hpop : popMin st.pq = some ((d, u), rest)) {du : ℚ}
    (hdu : alookup st.dist u = some du) :
    ∀ wp, Reaches cg s u wp → du ≤ wp := by
  intro wp hr
  have hmem : (d, u) ∈ st.pq :=
    (popMin_perm hpop).mem_iff.mpr (List.mem_cons_self _ _)
  have hdule : du ≤ d := by
    obtain ⟨dv, hdv, hle⟩ := L.pqSound d u hmem
    rw [hdu] at hdv
    rw [Option.some_inj.mp hdv]
    exact hle
  rcases dijkstra_cut hnn L (popMin_min hpop) hr with ⟨hvS, dv, hdv, hle⟩ | hd
  · rw [hdu] at hdv
    rw [Option.some_inj.mp hdv]
    exact hle
  · exact hdule.trans hd

/-! Pop bookkeeping. -/

theorem stale_settled {cg : Graph} {s : String} {S : List String} {st : DState}
    (L : LoopInv cg s S st) {d : ℚ} {u : String} {rest : List (ℚ × String)}
    (hpop : popMin st.pq = some ((d, u), rest)) {du : ℚ}
    (hdu : alookup st.dist u = some du) (hstale : du < d) : u ∈ S := by
  by_contra hu
  have hmem := L.frontier u du hdu hu
  have := pqLe_fst (popMin_min hpop _ hmem)
  exact absurd hstale (by simpa using this)

theorem pop_preserve {cg : Graph} {s : String} {S : List String} {st : DState}
    (L : LoopInv cg s S st) {d : ℚ} {u : String} {rest : List (ℚ × String)}
    (hpop : popMin st.pq = some ((d, u), rest)) (huS : u ∈ S) :
    LoopInv cg s S { st with pq := rest } := by
  have hperm := popMin_perm hpop
  refine ⟨⟨L.distNodup, L.prevNodup, L.distStart, L.distSound, L.distNonneg,
    L.distMem, L.settledNodup, L.settledSub, L.settledMin, ?_, ?_,
    L.prevSound, L.prevTotal, L.reconOk⟩, L.settledRelax⟩
  · intro v dv hdv hvS
    have hvu : v ≠ u := fun he => hvS (he ▸ huS)
    have hmem := L.frontier v dv hdv hvS
    have hmem2 : (dv, v) ∈ (d, u) :: rest := hperm.mem_iff.mp hmem
    rcases List.mem_cons.mp hmem2 with he | hm
    · simp only [Prod.mk.injEq] at he
      exact absurd he.2 hvu
    · exact hm
  · intro d₂ v₂ hmem
    exact L.pqSound d₂ v₂ (hperm.mem_iff.mpr (List.mem_cons_of_mem _ hmem))

theorem settled_card_le {cg : Graph} {s : String} {S : List String}
    {st : DState} (L : LoopInv cg s S st) {u : String} (hu : u ∉ S)
    {du : ℚ} (hdu : alookup st.dist u = some du) :
    S.length + 1 ≤ st.dist.length := by
  have hsub : ∀ x ∈ u :: S, x ∈ st.dist.map Prod.fst := by
    intro x hx
    rcases List.mem_cons.mp hx with he | hm
    · subst he
      exact List.mem_map.mpr ⟨(x, du), alookup_mem hdu, rfl⟩
    · obtain ⟨dx, hdx⟩ := L.settledSub x hm
      exact List.mem_map.mpr ⟨(x, dx), alookup_mem hdx, rfl⟩
  have hnd : (u :: S).Nodup := List.nodup_cons.mpr ⟨hu, L.settledNodup⟩
  have hcard : (u :: S).length = (u :: S).toFinset.card :=
    (List.toFinset_card_of_nodup hnd).symm
  have hfin : (u :: S).toFinset ⊆ (st.dist.map Prod.fst).toFinset := by
    intro x hx
    exact List.mem_toFinset.mpr (hsub x (List.mem_toFinset.mp hx))
  have hle := Finset.card_le_card hfin
  have hkeys : (st.dist.map Prod.fst).toFinset.card ≤ st.dist.length := by
    have := (st.dist.map Prod.fst).toFinset_card_le
    simpa using this
  have : (u :: S).length ≤ st.dist.length := by
    rw [hcard]
    exact hle.trans hkeys
  simpa using this

theorem settled_card_le_of_mem {cg : Graph} {s : String} {S : List String}
    {st : DState} (L : LoopInv cg s S st) : S.length ≤ st.dist.length := by
  have hsub : ∀ x ∈ S, x ∈ st.dist.map Prod.fst := by
    intro x hm
    obtain ⟨dx, hdx⟩ := L.settledSub x hm
    exact List.mem_map.mpr ⟨(x, dx), alookup_mem hdx, rfl⟩
  have hcard : S.length = S.toFinset.card :=
    (List.toFinset_card_of_nodup L.settledNodup).symm
  have hfin : S.toFinset ⊆ (st.dist.map Prod.fst).toFinset := by
    intro x hx
    exact List.mem_toFinset.mpr (hsub x (List.mem_toFinset.mp hx))
  have hle := Finset.card_le_card hfin
  have hkeys : (st.dist.map Prod.fst).toFinset.card ≤ st.dist.length := by
    have := (st.dist.map Prod.fst).toFinset_card_le
    simpa using this
  rw [hcard]
  exact hle.trans hkeys

/-- Any discovered node can be reconstructed into an attained path
whose weight is its recorded distance, within fuel bounded by the
distance map's size. -/
theorem recon_extend {cg : Graph} {s : String} {S : List String}
    {st : DState} (L : LoopInv cg s S st) {u : String} {du : ℚ}
    (hdu : alookup st.dist u = some du) :
    ∃ p n, n ≤ st.dist.length + 1 ∧ reconstruct st.prev s n u = some p ∧
      IsPathFrom cg s u p ∧ pathWeight cg p = du := by
  by_cases hus : u = s
  · subst hus
    have h0 : du = 0 := by
      rw [L.distStart] at hdu
      exact (Option.some_inj.mp hdu).symm
    subst h0
    exact ⟨[u], 1, by omega, by simp [reconstruct], ⟨rfl, rfl, rfl⟩, rfl⟩
  · by_cases huS : u ∈ S
    · obtain ⟨p, n, hn, hrec, hpath, hweight, _⟩ :=
        L.reconOk u (Or.inr huS) du hdu
      have hb : S.length ≤ st.dist.length := settled_card_le_of_mem L
      exact ⟨p, n, by omega, hrec, hpath, hweight⟩
    · obtain ⟨r, hr⟩ := L.prevTotal u du hdu hus
      obtain ⟨_, hrS, w₂, dv₂, du₂, hedge₂, hdv₂, hdu₂, heq₂⟩ :=
        L.prevSound u r hr
      have hdvu : dv₂ = du := by
        rw [hdu] at hdv₂
        exact (Option.some_inj.mp hdv₂).symm
      obtain ⟨p, n, hn, hrec, hpath, hweight, _⟩ :=
        L.reconOk r (Or.inr hrS) du₂ hdu₂
      have hb : S.length + 1 ≤ st.dist.length := settled_card_le L huS hdu
      refine ⟨p ++ [u], n + 1, by omega, ?_, ?_, ?_⟩
      · simp only [reconstruct, hus, if_false, hr, hrec, Option.map_some']
      · obtain ⟨hhead, hlast, hchain⟩ := hpath
        refine ⟨?_, List.getLast?_concat p, chainOk_snoc hchain hlast hedge₂⟩
        cases p with
        | nil => simp at hhead
        | cons a t => simpa using hhead
      · rw [pathWeight_snoc hpath.2.1 hedge₂, hweight, ← heq₂]
        exact hdvu

/-- Settling a freshly popped node and relaxing its edges restores the
full loop invariant, with the node prepended to the settled list and
with at most out-degree many new queue entries. -/
theorem settle_inv {cg : Graph} {s : String} {S : List String} {st : DState}
    (hnn : ∀ a b w, edgeW cg a b = some w → 0 ≤ w)
    (hadj : ∀ a, ((adjOf cg a).map Prod.fst).Nodup)
    (L : LoopInv cg s S st) {d : ℚ} {u : String} {rest : List (ℚ × String)}
    (hpop : popMin st.pq = some ((d, u), rest)) {du : ℚ}
    (hdu : alookup st.dist u = some du) (hnstale : ¬ du < d) (hfresh : u ∉ S) :
    LoopInv cg s (u :: S)
        (relaxEdges u d { st with pq := rest } (adjOf cg u)) ∧
      (relaxEdges u d { st with pq := rest } (adjOf cg u)).pq.length ≤
        rest.length + outDeg cg u := by
  have hperm := popMin_perm hpop
  have hmem : (d, u) ∈ st.pq := hperm.mem_iff.mpr (List.mem_cons_self _ _)
  have hdule : du ≤ d := by
    obtain ⟨dv, hdv, hle⟩ := L.pqSound d u hmem
    rw [hdu] at hdv
    rw [Option.some_inj.mp hdv]
    exact hle
  have hdeq : d = du := le_antisymm (not_lt.mp hnstale) hdule
  subst hdeq
  have humin : ∀ wp, Reaches cg s u wp → d ≤ wp := settle_min hnn L hpop hdu
  have hedges : ∀ p ∈ adjOf cg u, edgeW cg u p.1 = some p.2 := by
    intro p hp
    exact alookup_of_mem_nodup hp (hadj u)
  have R : RelaxState cg s (u :: S) u d { st with pq := rest } := by
    refine ⟨⟨L.distNodup, L.prevNodup, L.distStart, L.distSound, L.distNonneg,
      L.distMem, List.nodup_cons.mpr ⟨hfresh, L.settledNodup⟩, ?_, ?_, ?_, ?_,
      ?_, L.prevTotal, ?_⟩, ?_, hdu⟩
    · intro u₂ h
      rcases List.mem_cons.mp h with he | hm
      · subst he
        exact ⟨d, hdu⟩
      · exact L.settledSub u₂ hm
    · intro u₂ h du₂ hdu₂ wp hr
      rcases List.mem_cons.mp h with he | hm
      · subst he
        rw [hdu] at hdu₂
        rw [← Option.some_inj.mp hdu₂]
        exact humin wp hr
      · exact L.settledMin u₂ hm du₂ hdu₂ wp hr
    · intro v dv hdv hvS2
      have hvu : v ≠ u := fun he => hvS2 (he ▸ List.mem_cons_self u S)
      have hvS : v ∉ S := fun hm => hvS2 (List.mem_cons_of_mem _ hm)
      have hv := L.frontier v dv hdv hvS
      have hv2 : (dv, v) ∈ (d, u) :: rest := hperm.mem_iff.mp hv
      rcases List.mem_cons.mp hv2 with he | hm
      · simp only [Prod.mk.injEq] at he
        exact absurd he.2 hvu
      · exact hm
    · intro d₂ v₂ hmem2
      exact L.pqSound d₂ v₂ (hperm.mem_iff.mpr (List.mem_cons_of_mem _ hmem2))
    · intro v r h
      obtain ⟨hs₂, hrS, w₂, dv₂, du₂, hedge₂, hdv₂, hdu₂, heq₂⟩ :=
        L.prevSound v r h
      exact ⟨hs₂, List.mem_cons_of_mem _ hrS, w₂, dv₂, du₂, hedge₂, hdv₂, hdu₂,
        heq₂⟩
    · intro x hx du₂ hdu₂
      have hweaken : ∀ (p : List String) (n : ℕ), n ≤ S.length + 1 →
          reconstruct st.prev s n x = some p → IsPathFrom cg s x p →
          pathWeight cg p = du₂ → (∀ y ∈ p, y = s ∨ y ∈ S) →
          ∃ p₂ n₂, n₂ ≤ (u :: S).length + 1 ∧
            reconstruct st.prev s n₂ x = some p₂ ∧ IsPathFrom cg s x p₂ ∧
            pathWeight cg p₂ = du₂ ∧ ∀ y ∈ p₂, y = s ∨ y ∈ u :: S := by
        intro p n hn hrec hpath hweight hnodes
        refine ⟨p, n, by simp only [List.length_cons]; omega, hrec, hpath,
          hweight, ?_⟩
        intro y hy
        rcases hnodes y hy with h2 | h2
        · exact .inl h2
        · exact .inr (List.mem_cons_of_mem _ h2)
      rcases hx with hx | hx2
      · obtain ⟨p, n, hn, hrec, hpath, hweight, hnodes⟩ :=
          L.reconOk x (Or.inl hx) du₂ hdu₂
        exact hweaken p n hn hrec hpath hweight hnodes
      · rcases List.mem_cons.mp hx2 with he | hm
        · subst he
          by_cases hus : x = s
          · subst hus
            have h0 : du₂ = 0 := by
              rw [L.distStart] at hdu₂
              exact (Option.some_inj.mp hdu₂).symm
            subst h0
            exact ⟨[x], 1, by simp, by simp [reconstruct], ⟨rfl, rfl, rfl⟩,
              rfl, by simp⟩
          · obtain ⟨r, hr⟩ := L.prevTotal x du₂ hdu₂ hus
            obtain ⟨_, hrS, w₂, dv₂, du₃, hedge₂, hdv₂, hdu₃, heq₂⟩ :=
              L.prevSound x r hr
            have hdvx : dv₂ = du₂ := by
              rw [hdu₂] at hdv₂
              exact (Option.some_inj.mp hdv₂).symm
            obtain ⟨p, n, hn, hrec, hpath, hweight, hnodes⟩ :=
              L.reconOk r (Or.inr hrS) du₃ hdu₃
            refine ⟨p ++ [x], n + 1, by simp only [List.length_cons]; omega,
              ?_, ?_, ?_, ?_⟩
            · simp only [reconstruct, hus, if_false, hr, hrec,
                Option.map_some']
            · obtain ⟨hhead, hlast, hchain⟩ := hpath
              refine ⟨?_, List.getLast?_concat p,
                chainOk_snoc hchain hlast hedge₂⟩
              cases p with
              | nil => simp at hhead
              | cons a t => simpa using hhead
            · rw [pathWeight_snoc hpath.2.1 hedge₂, hweight, ← heq₂]
              exact hdvx
            · intro y hy
              rcases List.mem_append.mp hy with h2 | h2
              · rcases hnodes y h2 with h3 | h3
                · exact .inl h3
                · exact .inr (List.mem_cons_of_mem _ h3)
              · simp only [List.mem_singleton] at h2
                subst h2
                exact .inr (List.mem_cons_self _ _)
        · obtain ⟨p, n, hn, hrec, hpath, hweight, hnodes⟩ :=
            L.reconOk x (Or.inr hm) du₂ hdu₂
          exact hweaken p n hn hrec hpath hweight hnodes
    · intro u₂ h hne du₂ hdu₂ v w hedge
      rcases List.mem_cons.mp h with he | hm
      · exact absurd he hne
      · exact L.settledRelax u₂ hm du₂ hdu₂ v w hedge
  have R₂ := relax_preserves hnn (List.mem_cons_self u S) (adjOf cg u)
    { st with pq := rest } hedges R
  constructor
  · refine ⟨R₂.toInvCore, ?_⟩
    intro u₂ h du₂ hdu₂ v w hedge
    by_cases h2 : u₂ = u
    · subst h2
      have hdu₂eq : du₂ = d := by
        rw [R₂.distU] at hdu₂
        exact (Option.some_inj.mp hdu₂).symm
      have hedge2 : alookup (adjOf cg u₂) v = some w := hedge
      have hmem2 : (v, w) ∈ adjOf cg u₂ := alookup_mem hedge2
      obtain ⟨dv, hdv, hle⟩ :=
        relax_relaxed (adjOf cg u₂) { st with pq := rest } hmem2
      exact ⟨dv, hdv, by rw [hdu₂eq]; exact hle⟩
    · exact R₂.settledRelaxOld u₂ h h2 du₂ hdu₂ v w hedge
  · exact relax_pq_len (adjOf cg u) { st with pq := rest }

theorem dmeasure_sum_split {cg : Graph} {s : String} {S : List String}
    {u : String} (hu : u ∈ nodesFin cg s) (huS : u ∉ S) :
    ((nodesFin cg s) \ S.toFinset).sum (fun x => outDeg cg x + 1) =
      (outDeg cg u + 1) +
      ((nodesFin cg s) \ (u :: S).toFinset).sum (fun x => outDeg cg x + 1) := by
  have humem : u ∈ (nodesFin cg s) \ S.toFinset :=
    Finset.mem_sdiff.mpr ⟨hu, fun h => huS (List.mem_toFinset.mp h)⟩
  rw [List.toFinset_cons, Finset.sdiff_insert]
  exact (Finset.add_sum_erase _ _ humem).symm

theorem reach_has_dist_of_empty {cg : Graph} {s : String} {S : List String}
    {st : DState} (L : LoopInv cg s S st) (hempty : st.pq = []) :
    ∀ v wp, Reaches cg s v wp → ∃ dv, alookup st.dist v = some dv := by
  have hallS : ∀ v dv, alookup st.dist v = some dv → v ∈ S := by
    intro v dv h
    by_contra hv
    have hmem := L.frontier v dv h hv
    rw [hempty] at hmem
    exact absurd hmem (List.not_mem_nil _)
  intro v wp hr
  induction hr with
  | refl => exact ⟨0, L.distStart⟩
  | @step x v₂ dx w hx hedge ihr =>
      obtain ⟨dxv, hdxv⟩ := ihr
      have hxS := hallS x dxv hdxv
      obtain ⟨dv, hdv, _⟩ := L.settledRelax x hxS dxv hdxv v₂ w hedge
      exact ⟨dv, hdv⟩

/-- The master run theorem: from any state satisfying the loop
invariant, with fuel exceeding the measure, the while loop completes
and its final state answers the endId queries: a recorded distance for
endId is minimal over all attained weights and is reconstructible into
an attained path of exactly that weight; all recorded distances are
attained; and when endId is reachable it has a recorded distance. -/
theorem loop_run {cg : Graph} {s endId : String}
    (hnn : ∀ a b w, edgeW cg a b = some w → 0 ≤ w)
    (hadj : ∀ a, ((adjOf cg a).map Prod.fst).Nodup) :
    ∀ (fuel : ℕ) (S : List String) (st : DState), LoopInv cg s S st →
      dmeasure cg s S st < fuel →
      ∃ fin, dloop cg endId fuel st = some fin ∧
        (∀ de, alookup fin.dist endId = some de →
          (∀ wp, Reaches cg s endId wp → de ≤ wp) ∧
          ∃ p, reconstruct fin.prev s (fin.dist.length + 1) endId = some p ∧
            IsPathFrom cg s endId p ∧ pathWeight cg p = de) ∧
        (∀ v dv, alookup fin.dist v = some dv → Reaches cg s v dv) ∧
        (∀ wp, Reaches cg s endId wp → ∃ de, alookup fin.dist endId = some de) := by
  intro fuel
  induction fuel with
  | zero =>
      intro S st _ hm
      omega
  | succ n ih =>
      intro S st L hm
      cases hpop : popMin st.pq with
      | none =>
          have hempty : st.pq = [] := (popMin_eq_none_iff _).mp hpop
          have hallS : ∀ v dv, alookup st.dist v = some dv → v ∈ S := by
            intro v dv h
            by_contra hv
            have hmem := L.frontier v dv h hv
            rw [hempty] at hmem
            exact absurd hmem (List.not_mem_nil _)
          refine ⟨st, by simp [dloop, hpop], ?_, L.distSound, ?_⟩
          · intro de hde
            have heS := hallS endId de hde
            refine ⟨fun wp hr => L.settledMin endId heS de hde wp hr, ?_⟩
            obtain ⟨p, n₂, hn₂, hrec, hpath, hweight⟩ := recon_extend L hde
            exact ⟨p, reconstruct_mono hn₂ hrec, hpath, hweight⟩
          · intro wp hr
            exact reach_has_dist_of_empty L hempty endId wp hr
      | some pp =>
          obtain ⟨⟨d, u⟩, rest⟩ := pp
          have hmem : (d, u) ∈ st.pq :=
            (popMin_perm hpop).mem_iff.mpr (List.mem_cons_self _ _)
          obtain ⟨du, hdu, hdule⟩ := L.pqSound d u hmem
          have hlen : st.pq.length = rest.length + 1 := by
            have := (popMin_perm hpop).length_eq
            simpa using this
          by_cases hstale : du < d
          · have huS := stale_settled L hpop hdu hstale
            have L₂ := pop_preserve L hpop huS
            have hm₂ : dmeasure cg s S { st with pq := rest } < n := by
              unfold dmeasure at hm ⊢
              simp only at hm ⊢
              omega
            simp only [dloop, hpop, hdu, if_pos hstale]
            exact ih S _ L₂ hm₂
          · by_cases hbreak : u = endId
            · simp only [dloop, hpop, hdu]
              rw [if_neg hstale, if_pos hbreak]
              refine ⟨{ st with pq := rest }, rfl, ?_, L.distSound, ?_⟩
              · intro de hde
                have hde2 : alookup st.dist u = some de := by
                  rw [hbreak]
                  exact hde
                have hdeq : de = du := by
                  rw [hdu] at hde2
                  exact (Option.some_inj.mp hde2).symm
                refine ⟨?_, ?_⟩
                · intro wp hr
                  have hr2 : Reaches cg s u wp := by
                    rw [hbreak]
                    exact hr
                  rw [hdeq]
                  exact settle_min hnn L hpop hdu wp hr2
                · obtain ⟨p, n₂, hn₂, hrec, hpath, hweight⟩ :=
                    recon_extend L hde
                  exact ⟨p, reconstruct_mono hn₂ hrec, hpath, hweight⟩
              · intro wp hr
                refine ⟨du, ?_⟩
                rw [← hbreak]
                exact hdu
            · simp only [dloop, hpop, hdu]
              rw [if_neg hstale, if_neg hbreak]
              by_cases hfresh : u ∈ S
              · have hdeq : d = du := le_antisymm (not_lt.mp hstale) hdule
                have hcond : ∀ p ∈ adjOf cg u,
                    ∃ dv, alookup ({ st with pq := rest } : DState).dist p.1 =
                      some dv ∧ dv ≤ d + p.2 := by
                  intro p hp
                  have hedge : edgeW cg u p.1 = some p.2 :=
                    alookup_of_mem_nodup hp (hadj u)
                  obtain ⟨dv, hdv, hle⟩ :=
                    L.settledRelax u hfresh du hdu p.1 p.2 hedge
                  exact ⟨dv, hdv, by rw [hdeq]; exact hle⟩
                rw [relax_noop (adjOf cg u) { st with pq := rest } hcond]
                have L₂ := pop_preserve L hpop hfresh
                have hm₂ : dmeasure cg s S { st with pq := rest } < n := by
                  unfold dmeasure at hm ⊢
                  simp only at hm ⊢
                  omega
                exact ih S _ L₂ hm₂
              · obtain ⟨L₂, hlen₂⟩ := settle_inv hnn hadj L hpop hdu hstale hfresh
                have humem : u ∈ nodesFin cg s := L.distMem u du hdu
                have hsplit := dmeasure_sum_split humem hfresh
                have hm₂ : dmeasure cg s (u :: S)
                    (relaxEdges u d { st with pq := rest } (adjOf cg u)) < n := by
                  unfold dmeasure at hm ⊢
                  rw [hsplit] at hm
                  omega
                exact ih (u :: S) _ L₂ hm₂

/-! Endpoint glue: the initial state satisfies the invariant, the
chosen fuel exceeds the initial measure, and the closed graph of a
well-formed non-negative graph has non-negative edges. -/

theorem init_inv {cg : Graph} {s : String} : LoopInv cg s [] (initState s) := by
  refine ⟨⟨by simp [initState], by simp [initState], by simp [initState, alookup],
    ?_, ?_, ?_, List.nodup_nil, ?_, ?_, ?_, ?_, ?_, ?_, ?_⟩, ?_⟩
  · intro v d h
    simp only [initState, alookup] at h
    by_cases hs : s = v
    · subst hs
      simp only [if_pos rfl] at h
      rw [← Option.some_inj.mp h]
      exact Reaches.refl
    · simp [hs] at h
  · intro v d h
    simp only [initState, alookup] at h
    by_cases hs : s = v
    · subst hs
      simp only [if_pos rfl] at h
      rw [← Option.some_inj.mp h]
    · simp [hs] at h
  · intro v d h
    simp only [initState, alookup] at h
    by_cases hs : s = v
    · subst hs
      exact Finset.mem_insert_self s _
    · simp [hs] at h
  · intro a ha
    exact absurd ha (List.not_mem_nil _)
  · intro a ha
    exact absurd ha (List.not_mem_nil _)
  · intro v d h _
    simp only [initState, alookup] at h
    by_cases hs : s = v
    · subst hs
      simp only [if_pos rfl] at h
      rw [← Option.some_inj.mp h]
      simp [initState]
    · simp [hs] at h
  · intro d v hmem
    simp only [initState, List.mem_singleton, Prod.mk.injEq] at hmem
    obtain ⟨hd, hv⟩ := hmem
    subst hd
    subst hv
    exact ⟨0, by simp [initState, alookup], le_refl 0⟩
  · intro v r h
    simp [initState, alookup] at h
  · intro v d h hne
    simp only [initState, alookup] at h
    by_cases hs : s = v
    · exact absurd hs.symm hne
    · simp [hs] at h
  · intro x hx du hdu
    have hxs : x = s := by
      rcases hx with hx | hx
      · exact hx
      · exact absurd hx (List.not_mem_nil _)
    subst hxs
    have h0 : du = 0 := by
      simp only [initState, alookup, if_pos rfl] at hdu
      exact (Option.some_inj.mp hdu).symm
    subst h0
    exact ⟨[x], 1, by omega, by simp [reconstruct], ⟨rfl, rfl, rfl⟩, rfl,
      by simp⟩
  · intro a ha
    exact absurd ha (List.not_mem_nil _)

theorem init_measure_lt {cg : Graph} {s : String} :
    dmeasure cg s [] (initState s) < loopFuel cg s := by
  unfold dmeasure loopFuel initState
  simp

theorem edgeW_nonneg_of {g : Graph} (hg : GraphWF g) (hw : NonnegWeights g) :
    ∀ a b w, edgeW (closeGraph g) a b = some w → 0 ≤ w := by
  intro a b w h
  rw [edgeW_closeGraph hg, edgeW, adjOf] at h
  cases hl : alookup g a with
  | none =>
      rw [hl] at h
      simp [alookup] at h
  | some adj =>
      rw [hl] at h
      simp only [Option.getD_some] at h
      exact hw (a, adj) (alookup_mem hl) (b, w) (alookup_mem h)

theorem isEmpty_false_of_node {g : Graph} {s : String} (hs : s ∈ nodesOf g) :
    g.isEmpty = false := by
  cases g with
  | nil => simp [nodesOf] at hs
  | cons p rest => rfl

/-- The endpoint, on a valid graph with both endpoints in the node set
and the end reachable, returns a minimal attained path and its exact
weight. -/
theorem solve_correct_reachable {g : Graph} {s e : String} (hg : GraphWF g)
    (hw : NonnegWeights g) (hs : s ∈ nodesOf g) (he : e ∈ nodesOf g)
    (hreach : Reachable g s e) :
    ∃ p d, get_shortest_path (some g) s e = .result (some p) (some d) ∧
      p.head? = some s ∧ p.getLast? = some e ∧ chainOk g p = true ∧
      pathWeight g p = d ∧ ∀ q, IsPathFrom g s e q → d ≤ pathWeight g q := by
  have hedge_eq : ∀ u v, edgeW (closeGraph g) u v = edgeW g u v :=
    edgeW_closeGraph hg
  have hnn := edgeW_nonneg_of hg hw
  have hadj := adjOf_closeGraph_nodup g
  obtain ⟨fin, hrun, hfact1, hfact2, hfact3⟩ :=
    @loop_run (closeGraph g) s e hnn hadj
      (loopFuel (closeGraph g) s) [] (initState s) init_inv init_measure_lt
  obtain ⟨q0, hq0⟩ := hreach
  have hq0c : IsPathFrom (closeGraph g) s e q0 :=
    (isPathFrom_congr hedge_eq s e q0).mpr hq0
  obtain ⟨de, hde⟩ := hfact3 (pathWeight (closeGraph g) q0)
    (reaches_of_isPathFrom hq0c)
  obtain ⟨hmin, p, hrec, hpath, hweight⟩ := hfact1 de hde
  refine ⟨p, de, ?_, ?_, ?_, ?_, ?_, ?_⟩
  · simp only [get_shortest_path, isEmpty_false_of_node hs,
      Bool.false_eq_true, if_false]
    rw [if_neg (by push_neg; exact ⟨hs, he⟩)]
    simp only [hrun, hde, hrec]
  · exact hpath.1
  · exact hpath.2.1
  · rw [← chainOk_congr hedge_eq p]
    exact hpath.2.2
  · rw [← pathWeight_congr hedge_eq p]
    exact hweight
  · intro q hq
    have hqc : IsPathFrom (closeGraph g) s e q :=
      (isPathFrom_congr hedge_eq s e q).mpr hq
    have := hmin (pathWeight (closeGraph g) q) (reaches_of_isPathFrom hqc)
    rw [← pathWeight_congr hedge_eq q]
    exact this

/-- The endpoint, on a valid graph with both endpoints in the node set
and the end unreachable, returns the null result. -/
theorem solve_correct_unreachable {g : Graph} {s e : String} (hg : GraphWF g)
    (hw : NonnegWeights g) (hs : s ∈ nodesOf g) (he : e ∈ nodesOf g)
    (hunreach : ¬ Reachable g s e) :
    get_shortest_path (some g) s e = .result none none := by
  have hedge_eq : ∀ u v, edgeW (closeGraph g) u v = edgeW g u v :=
    edgeW_closeGraph hg
  have hnn := edgeW_nonneg_of hg hw
  have hadj := adjOf_closeGraph_nodup g
  obtain ⟨fin, hrun, hfact1, hfact2, hfact3⟩ :=
    @loop_run (closeGraph g) s e hnn hadj
      (loopFuel (closeGraph g) s) [] (initState s) init_inv init_measure_lt
  have hnone : alookup fin.dist e = none := by
    cases hl : alookup fin.dist e with
    | none => rfl
    | some de =>
        have hr := hfact2 e de hl
        obtain ⟨p, hp, _⟩ := isPathFrom_of_reaches hr
        exact absurd ⟨p, (isPathFrom_congr hedge_eq s e p).mp hp⟩ hunreach
  simp only [get_shortest_path, isEmpty_false_of_node hs,
    Bool.false_eq_true, if_false]
  rw [if_neg (by push_neg; exact ⟨hs, he⟩)]
  simp only [hrun, hnone]

theorem disconnected_not_reachable :
    ¬ Reachable ([("A", []), ("B", [])] : Graph) "A" "B" := by
  rintro ⟨p, hhead, hlast, hchain⟩
  cases p with
  | nil => simp at hhead
  | cons a t =>
      simp only [List.head?_cons, Option.some_inj] at hhead
      subst hhead
      cases t with
      | nil =>
          simp only [List.getLast?_singleton, Option.some_inj] at hlast
          exact absurd hlast (by decide)
      | cons b t2 =>
          simp only [chainOk, Bool.and_eq_true] at hchain
          have hnone : edgeW ([("A", []), ("B", [])] : Graph) "A" b = none := by
            simp [edgeW, adjOf, alookup]
          rw [hnone] at hchain
          simp at hchain

attribute [local semireducible] Rat.add in
/-- Claim C3: on every valid graph (unique dict keys, non-negative
weights) with start and end in the node set and the end reachable, the
solve endpoint returns a path that starts at the start node, ends at
the end node, follows edges of the graph, whose edge-weight sum equals
the returned total distance, and whose total weight is minimal among
all connecting paths; scenario A is included concretely.  Weights are
exact rationals in the model, so the sums are exact. -/
theorem claim_C3 :
    (∀ (g : Graph) (s e : String), GraphWF g → NonnegWeights g →
      s ∈ nodesOf g → e ∈ nodesOf g → Reachable g s e →
      ∃ p d, get_shortest_path (some g) s e = .result (some p) (some d) ∧
        p.head? = some s ∧ p.getLast? = some e ∧ chainOk g p = true ∧
        pathWeight g p = d ∧ ∀ q, IsPathFrom g s e q → d ≤ pathWeight g q) ∧
    get_shortest_path
        (some [("A", [("B", (1 : ℚ)), ("C", 4)]), ("B", [("C", 2)]), ("C", [])])
        "A" "C" = .result (some ["A", "B", "C"]) (some 3) :=
  ⟨fun _ _ _ hg hw hs he hr => solve_correct_reachable hg hw hs he hr, by decide⟩

/-- Claim C3, witness: the correctness statement applied to scenario A. -/
theorem claim_C3_witness :
    (GraphWF [("A", [("B", (1 : ℚ)), ("C", 4)]), ("B", [("C", 2)]), ("C", [])] ∧
      NonnegWeights
        [("A", [("B", (1 : ℚ)), ("C", 4)]), ("B", [("C", 2)]), ("C", [])] ∧
      "A" ∈ nodesOf
        [("A", [("B", (1 : ℚ)), ("C", 4)]), ("B", [("C", 2)]), ("C", [])] ∧
      "C" ∈ nodesOf
        [("A", [("B", (1 : ℚ)), ("C", 4)]), ("B", [("C", 2)]), ("C", [])] ∧
      Reachable
        [("A", [("B", (1 : ℚ)), ("C", 4)]), ("B", [("C", 2)]), ("C", [])]
        "A" "C") ∧
    (∃ p d, get_shortest_path
        (some [("A", [("B", (1 : ℚ)), ("C", 4)]), ("B", [("C", 2)]), ("C", [])])
        "A" "C" = .result (some p) (some d) ∧
      p.head? = some "A" ∧ p.getLast? = some "C" ∧
      chainOk [("A", [("B", (1 : ℚ)), ("C", 4)]), ("B", [("C", 2)]), ("C", [])]
        p = true ∧
      pathWeight
        [("A", [("B", (1 : ℚ)), ("C", 4)]), ("B", [("C", 2)]), ("C", [])] p = d ∧
      ∀ q, IsPathFrom
          [("A", [("B", (1 : ℚ)), ("C", 4)]), ("B", [("C", 2)]), ("C", [])]
          "A" "C" q →
        d ≤ pathWeight
          [("A", [("B", (1 : ℚ)), ("C", 4)]), ("B", [("C", 2)]), ("C", [])] q) :=
  ⟨⟨by decide, by decide, by decide, by decide, ⟨["A", "B", "C"], by decide⟩⟩,
    claim_C3.1 [("A", [("B", (1 : ℚ)), ("C", 4)]), ("B", [("C", 2)]), ("C", [])]
      "A" "C" (by decide) (by decide) (by decide) (by decide)
      ⟨["A", "B", "C"], by decide⟩⟩

attribute [local semireducible] Rat.add in
/-- Claim C4: on every valid graph with start and end in the node set
and the end unreachable from the start, the solve endpoint returns the
result with a null path and null total distance; scenario D (the
two-node disconnected graph) is included concretely. -/
theorem claim_C4 :
    (∀ (g : Graph) (s e : String), GraphWF g → NonnegWeights g →
      s ∈ nodesOf g → e ∈ nodesOf g → ¬ Reachable g s e →
      get_shortest_path (some g) s e = .result none none) ∧
    get_shortest_path (some [("A", ([] : Adj)), ("B", [])]) "A" "B" =
      .result none none :=
  ⟨fun _ _ _ hg hw hs he hur => solve_correct_unreachable hg hw hs he hur,
    by decide⟩

/-- Claim C4, witness: the unreachable statement applied to scenario D. -/
theorem claim_C4_witness :
    (GraphWF [("A", ([] : Adj)), ("B", [])] ∧
      NonnegWeights [("A", ([] : Adj)), ("B", [])] ∧
      "A" ∈ nodesOf [("A", ([] : Adj)), ("B", [])] ∧
      "B" ∈ nodesOf [("A", ([] : Adj)), ("B", [])] ∧
      ¬ Reachable [("A", ([] : Adj)), ("B", [])] "A" "B") ∧
    get_shortest_path (some [("A", ([] : Adj)), ("B", [])]) "A" "B" =
      .result none none :=
  ⟨⟨by decide, by decide, by decide, by decide, disconnected_not_reachable⟩,
    claim_C4.1 [("A", ([] : Adj)), ("B", [])] "A" "B" (by decide) (by decide)
      (by decide) (by decide) disconnected_not_reachable⟩

end Server
